import Mathlib

/-!
Verification of the Symon conversational-text SDK core.

Strings from the host language are modelled as `List Char`, numeric scores as
rationals, and string indices as integers (the host `indexOf` may return -1).
Asynchronous host code is cooperative and single-threaded, so promise-based
methods are modelled as pure functions or explicit state machines.

Sections, in order: named-entity extraction (ner/entity.ts, ner/regexp.ts,
ner/enum.ts), the classifier engine (nlp/classifier.ts), the conversation
routine (routine.ts), and the dialogue engine (bot.ts).  All definitions come
first, all lemmas and claim theorems after them.
-/

namespace Symon

/-- An entity match, as in `EntityMatch` of ner/entity.ts. -/
structure EntityMatch where
  label : List Char
  option : List Char
  source : List Char
  score : ℚ
  index : Int
deriving DecidableEq, Repr

/-- Stable insertion step for the ascending-by-offset sort used by
`EntityManager.search` (the host sort with comparator `a.index - b.index`
is stable, so an element is inserted after all earlier elements whose
offset is not larger). -/
def insertByIndex (e : EntityMatch) : List EntityMatch → List EntityMatch
  | [] => [e]
  | x :: xs => if x.index < e.index then x :: insertByIndex e xs else e :: x :: xs

/-- Stable sort of matches, ascending by start offset. -/
def sortByIndex : List EntityMatch → List EntityMatch
  | [] => []
  | x :: xs => insertByIndex x (sortByIndex xs)

/-- Step 2 of `EntityManager.search`: the single left-to-right pass that
filters out overlapping matches, keeping a candidate only when its start
offset is at least the running `lastEnding` cursor. -/
def resolveGo (lastEnding : Int) : List EntityMatch → List EntityMatch
  | [] => []
  | e :: rest =>
    if e.index < lastEnding then resolveGo lastEnding rest
    else e :: resolveGo (e.index + (e.source.length : Int)) rest

/-- `EntityManager.search` (ner/entity.ts, lines 120-140): run every
registered extractor on the input, flatten, sort ascending by offset, and
resolve overlaps.  Extractors are taken as plain functions, matching the
abstract `Entity.search` contract; the registry map iterates in insertion
order, hence the list. -/
def EntityManager.search (extractors : List (List Char → List EntityMatch))
    (input : List Char) : List EntityMatch :=
  resolveGo 0 (sortByIndex ((extractors.map (fun e => e input)).flatten))

/-- Two matches whose half-open spans do not intersect. -/
def spansDisjoint (a b : EntityMatch) : Prop :=
  a.index + (a.source.length : Int) ≤ b.index ∨ b.index + (b.source.length : Int) ≤ a.index

/-- Length of the leading run of the character `a`. -/
def countLeadingA : List Char → Nat
  | [] => 0
  | c :: rest => if c = 'a' then countLeadingA rest + 1 else 0

/-- Match attempt of the pattern `a{2,}` at the head of the text: greedy,
so it takes the whole leading run of `a` when that run has length at
least two. -/
def patARun (s : List Char) : Option Nat :=
  if 2 ≤ countLeadingA s then some (countLeadingA s) else none

/-- Match attempt of the pattern `ab` at the head of the text. -/
def patAB : List Char → Option Nat
  | 'a' :: 'b' :: _ => some 2
  | _ => none

/-- Scanning loop of `String.prototype.matchAll` with a global pattern,
with an explicit step budget to keep the recursion structural: scan left
to right, report each leftmost match as (start offset, length) and
continue right after it.  Every step consumes at least one character, so
a budget of the text length makes the budget irrelevant. -/
def matchAllGo (pat : List Char → Option Nat) : Nat → List Char → Nat → List (Nat × Nat)
  | 0, _, _ => []
  | _ + 1, [], _ => []
  | fuel + 1, c :: rest, i =>
    match pat (c :: rest) with
    | some n => (i, n) :: matchAllGo pat fuel ((c :: rest).drop (max n 1)) (i + max n 1)
    | none => matchAllGo pat fuel rest (i + 1)

/-- `String.prototype.matchAll`: all leftmost matches of a global pattern,
as (start offset, length) pairs.  `pat` returns the length matched at the
head of its argument; both patterns above match at least one character and
neither can match an empty suffix, so stopping at the empty list is
faithful. -/
def matchAllFrom (pat : List Char → Option Nat) (input : List Char) : List (Nat × Nat) :=
  matchAllGo pat input.length input 0

/-- `RegexpEntity.search` (ner/regexp.ts, lines 29-38) for a pattern
without capture groups: every match yields the matched substring as both
`source` and `option`, score 1, and the match offset. -/
def RegexpEntity.search (label : List Char) (pat : List Char → Option Nat)
    (input : List Char) : List EntityMatch :=
  (matchAllFrom pat input).map (fun m =>
    { label := label
      option := (input.drop m.1).take m.2
      source := (input.drop m.1).take m.2
      score := 1
      index := (m.1 : Int) })

/-- The placeholder `%label%`. -/
def percentLabel (label : List Char) : List Char := '%' :: (label ++ ['%'])

/-- One step of the reduce in `Entity.template` (ner/entity.ts, lines 51-56):
`pos` is the match offset shifted by how much the accumulator has grown or
shrunk relative to the original input.  The host `substring` clamps a
negative position to zero and an overlong one to the string length, which
`Int.toNat` together with the clamping of `take` and `drop` reproduces. -/
def applySub (inputLen : Nat) (acc : List Char) (m : EntityMatch) : List Char :=
  let pos : Int := m.index - ((inputLen : Int) - (acc.length : Int))
  acc.take pos.toNat ++ percentLabel m.label
    ++ acc.drop (pos + (m.source.length : Int)).toNat

/-- `Entity.template` (ner/entity.ts): replace every match span with the
placeholder of its label, by a single left fold over the matches. -/
def Entity.template (input : List Char) (entities : List EntityMatch) : List Char :=
  entities.foldl (applySub input.length) input

/-- Start offset of a match as a natural number. -/
def EntityMatch.start (m : EntityMatch) : Nat := m.index.toNat

/-- Spec-level rendition of the template: walk the original string left to
right, copying the text between match spans and emitting `%label%` for each
match span.  This is the formal reading of: each kept source substring is
replaced by its placeholder and every character outside the kept spans is
unchanged. -/
def renderFrom (original : List Char) : Nat → List EntityMatch → List Char
  | pos, [] => original.drop pos
  | pos, m :: ms =>
    (original.drop pos).take (m.start - pos) ++ percentLabel m.label
      ++ renderFrom original (m.start + m.source.length) ms

/-- A list of matches laid out consistently on `original` from position
`pos`: offsets are nonnegative and nondecreasing without overlap, and every
span stays inside the original string. -/
def validFrom (original : List Char) : Nat → List EntityMatch → Prop
  | _, [] => True
  | pos, m :: ms =>
    0 ≤ m.index ∧ pos ≤ m.start ∧ m.start + m.source.length ≤ original.length
      ∧ validFrom original (m.start + m.source.length) ms

/-- Floor of a rational, written so that the kernel can evaluate it (the
division is the Euclidean one of `Int`, which is the floor division for the
positive denominator of a reduced rational). -/
def ratFloor (q : ℚ) : Int := q.num / q.den

/-- Rounding half-up to two decimal places, as the lodash `round(x, 2)`
used throughout the classifier: `Math.round` adds one half and takes the
floor. -/
def jsRound2 (x : ℚ) : ℚ := ((ratFloor (100 * x + 1/2) : ℚ)) / 100

/-- A classification, as in `ClassifierMatch` of nlp/classifier.ts. -/
structure ClassifierMatch where
  intent : List Char
  language : List Char
  score : ℚ
deriving DecidableEq, Repr

/-- Default confidence threshold of the Bot constructor (bot.ts, line 117). -/
def Bot.defaultMinThreshold : ℚ := 3/4

/-- Default minimum deviation of the Bot constructor (bot.ts, line 118). -/
def Bot.defaultMinDeviation : ℚ := 1/20

/-- Score of the first classification, 0 when the list is empty. -/
def topScore (cls : List ClassifierMatch) : ℚ :=
  ((cls[0]?).map ClassifierMatch.score).getD 0

/-- Score of the second classification, 0 when absent. -/
def secondScore (cls : List ClassifierMatch) : ℚ :=
  ((cls[1]?).map ClassifierMatch.score).getD 0

/-- Step 3 of `Bot.classify` (bot.ts, lines 207-214): the head and next
scores (0 when absent) gate the winning intent by the confidence threshold
and the minimum deviation.  The source dereferences `classifications[0]!`
under the guard; whenever the threshold is positive the guard forces a
nonempty list, and the `Option.map` used here agrees with the source. -/
def determineIntent (minThreshold minDeviation : ℚ)
    (classifications : List ClassifierMatch) : Option (List Char) :=
  let headScore := ((classifications[0]?).map ClassifierMatch.score).getD 0
  let nextScore := ((classifications[1]?).map ClassifierMatch.score).getD 0
  let deviation := headScore - nextScore
  if minThreshold ≤ headScore ∧ minDeviation ≤ deviation
  then (classifications[0]?).map ClassifierMatch.intent
  else none

/-- Sentence-terminating punctuation of `classifyText`: `!`, `?` or `.`. -/
def isSentenceBreak (c : Char) : Bool := c == '!' || c == '?' || c == '.'

/-- `String.prototype.split` on a character class: n separators produce
n + 1 pieces, possibly empty. -/
def splitBreaks : List Char → List (List Char)
  | [] => [[]]
  | c :: rest =>
    if isSentenceBreak c then [] :: splitBreaks rest
    else
      match splitBreaks rest with
      | [] => [[c]]
      | p :: ps => (c :: p) :: ps

/-- `str.trim().length > 0`: the piece has a non-whitespace character. -/
def hasContent (s : List Char) : Bool := s.any (fun c => !c.isWhitespace)

/-- The non-empty sentences of a text (nlp/classifier.ts, line 159). -/
def sentencesOf (input : List Char) : List (List Char) :=
  (splitBreaks input).filter hasContent

/-- `buildLabel` (nlp/classifier.ts, lines 200-202): the internal label
`language/intent` of the external classifier. -/
def buildLabel (intent language : List Char) : List Char :=
  language ++ '/' :: intent

/-- Scanning loop for the label regex `(.+?)\/(.+)`: unanchored and lazy,
the match succeeds at the first position j ≥ 1 holding a `/` with at least
one character after it, splitting the label there. -/
def parseLabelGo (pre : List Char) : List Char → Option (List Char × List Char)
  | [] => none
  | c :: rest =>
    if c = '/' ∧ pre ≠ [] ∧ rest ≠ [] then some (pre.reverse, rest)
    else parseLabelGo (c :: pre) rest

/-- `parseLabel` (nlp/classifier.ts, lines 209-213): split an internal
label back into (language, intent).  Models the regex for newline-free
labels (the regex dot cannot match a line break); labels built by
`buildLabel` from newline-free parts are the ones in scope.  Returns none
where the source would throw on a null regex match. -/
def parseLabel (label : List Char) : Option (List Char × List Char) :=
  parseLabelGo [] label

/-- Keys in first-occurrence order, as the key order of the host object
produced by the lodash `groupBy`. -/
def firstOccurrencesGo (seen : List (List Char)) : List (List Char) → List (List Char)
  | [] => []
  | k :: ks =>
    if k ∈ seen then firstOccurrencesGo seen ks
    else k :: firstOccurrencesGo (k :: seen) ks

/-- Deduplicated key list, keeping first occurrences in order. -/
def firstOccurrences (l : List (List Char)) : List (List Char) :=
  firstOccurrencesGo [] l

/-- One step of the reduce in `classifyText` (nlp/classifier.ts, lines
172-180): group the concatenation of the accumulator with the next
sentence classifications by built label, then emit one classification per
key with the summed score and the label parsed back.  Returns none where
the source would throw on an unparsable label. -/
def mergeStep (acc curr : List ClassifierMatch) : Option (List ClassifierMatch) :=
  let all := acc ++ curr
  let keys := firstOccurrences (all.map (fun c => buildLabel c.intent c.language))
  keys.mapM (fun key =>
    (parseLabel key).map (fun p =>
      { language := p.1
        intent := p.2
        score := ((all.filter (fun c => buildLabel c.intent c.language == key)).map
            ClassifierMatch.score).sum }))

/-- Stable insertion step for the descending-by-score sorts: the earlier
element is inserted before the first element whose score is not larger. -/
def insertDescBy {α : Type} (f : α → ℚ) (e : α) : List α → List α
  | [] => [e]
  | x :: xs => if f e < f x then x :: insertDescBy f e xs else e :: x :: xs

/-- Stable sort, descending by score (the host sort with comparator
`b.score - a.score` is stable). -/
def sortDescBy {α : Type} (f : α → ℚ) : List α → List α
  | [] => []
  | x :: xs => insertDescBy f x (sortDescBy f xs)

/-- `Classifier.classifyText` (nlp/classifier.ts, lines 158-192), with the
per-sentence classification abstracted as a pure function (the engine is
trained and its queue serializes the calls, so each sentence yields a fixed
classification list).  The division producing `ratio` is rational, so a
zero total gives ratio 0 where the host gives Infinity; that point is
reachable only when the abstract per-sentence classifier emits nonpositive
scores, which `classify` never does.  Returns none where the source would
throw. -/
def classifyTextM (classify : List Char → List ClassifierMatch)
    (input : List Char) : Option (List ClassifierMatch) :=
  let sentences := sentencesOf input
  if sentences.length ≤ 1 then some (classify input)
  else do
    let merged ← ((sentences.map classify).filter
      (fun l => decide (0 < l.length))).foldlM mergeStep []
    let ratio : ℚ := 1 / (merged.map ClassifierMatch.score).sum
    some (sortDescBy ClassifierMatch.score
      (merged.map (fun c => { c with score := jsRound2 (c.score * ratio) })))

/-- The per-sentence classification lists surviving the empty filter of
`classifyText` (step 2). -/
def sentenceClassifications (classify : List Char → List ClassifierMatch)
    (input : List Char) : List (List ClassifierMatch) :=
  ((sentencesOf input).map classify).filter (fun l => decide (0 < l.length))

/-- Total score carried by one (language, intent) key in a list. -/
def keyScore (language intent : List Char) (l : List ClassifierMatch) : ℚ :=
  ((l.filter (fun c => c.language == language && c.intent == intent)).map
    ClassifierMatch.score).sum

/-- A classification whose label round-trips through the internal label
encoding: nonempty language without `/`, nonempty intent, and no line
breaks (the label regex dot cannot cross a line break). -/
def WellFormedMatch (c : ClassifierMatch) : Prop :=
  c.language ≠ [] ∧ '/' ∉ c.language ∧ '\n' ∉ c.language
    ∧ c.intent ≠ [] ∧ '\n' ∉ c.intent

/-- `Classifier.classify` (nlp/classifier.ts, lines 126-151), with the raw
scores returned by the external classifier for the input abstracted as a
list of (label, value) pairs (the single-worker queue hands them back
unchanged).  The `trained` flag mirrors `classifierReady`.  Returns none
where the source throws: on an untrained classifier, or on a raw label the
label regex cannot parse. -/
def classifyM (trained : Bool) (raw : List (List Char × ℚ)) :
    Option (List ClassifierMatch) :=
  if !trained then none
  else do
    let parsed ← raw.mapM (fun cls =>
      (parseLabel cls.1).map (fun p =>
        ({ intent := p.2, language := p.1, score := jsRound2 cls.2 } : ClassifierMatch)))
    let classifications := parsed.filter (fun c => decide (0 < c.score))
    if classifications.length ≤ 1 then some classifications
    else
      let mean := (classifications.map ClassifierMatch.score).sum
        / (classifications.length : ℚ)
      some (classifications.filter (fun c => decide (mean < c.score)))

/-- C5, the filtering policy as the specification words it, applied to a
list of already-parsed classifications still carrying raw scores: round to
2 decimals, discard non-positive scores, and exactly when more than one
survives, additionally discard scores at or below the arithmetic mean of
the survivors; otherwise return the survivors unchanged. -/
def classifySpecPolicy (cls : List ClassifierMatch) : List ClassifierMatch :=
  let survivors := (cls.map (fun c => { c with score := jsRound2 c.score })).filter
    (fun c => decide (0 < c.score))
  if 1 < survivors.length then
    survivors.filter (fun c =>
      decide ((survivors.map ClassifierMatch.score).sum / (survivors.length : ℚ) < c.score))
  else survivors

/-- Concrete per-sentence classifier realizing a 3:1 weighted two-intent
split over the sentences of `"a. b. c"`. -/
def classifyEx (s : List Char) : List ClassifierMatch :=
  if s = "a".toList then [⟨"A".toList, "en".toList, 3/5⟩]
  else if s = " b".toList then [⟨"A".toList, "en".toList, 9/10⟩]
  else if s = " c".toList then [⟨"B".toList, "en".toList, 1/2⟩]
  else []

/-- Concrete per-sentence classifier giving three distinct intents one
unit each over the sentences of `"x. y. z"`. -/
def classifyUniform (s : List Char) : List ClassifierMatch :=
  if s = "x".toList then [⟨"A".toList, "en".toList, 1⟩]
  else if s = " y".toList then [⟨"B".toList, "en".toList, 1⟩]
  else if s = " z".toList then [⟨"C".toList, "en".toList, 1⟩]
  else []

/-- ASCII restriction of the word characters of nlp/tokenizer.ts: the
tokenizer splits on runs of characters outside apostrophe, Alphabetic,
Mark, Decimal_Number, Connector_Punctuation and Join_Control; on the ASCII
fragment in scope this is letters, digits, apostrophe and underscore. -/
def isWordChar (c : Char) : Bool := c.isAlpha || c.isDigit || c == '\'' || c == '_'

/-- Split on non-word characters.  The tokenizer regex splits on runs, but
after empty pieces are filtered out this agrees with per-character
splitting. -/
def splitNonWord : List Char → List (List Char)
  | [] => [[]]
  | c :: rest =>
    if isWordChar c then
      match splitNonWord rest with
      | [] => [[c]]
      | p :: ps => (c :: p) :: ps
    else [] :: splitNonWord rest

/-- `WordTokenizer.tokenize` (nlp/tokenizer.ts): split on non-word
characters and remove empty tokens. -/
def tokenize (input : List Char) : List (List Char) :=
  (splitNonWord input).filter (fun t => !t.isEmpty)

/-- One step of the textbook Levenshtein distance with unit costs, as the
`natural` LevenshteinDistance used by the enumeration extractor, with an
explicit step budget keeping the recursion structural: every recursive
call shortens the combined length, so a budget of the combined length
makes the budget irrelevant. -/
def levGo : Nat → List Char → List Char → Nat
  | _, [], ys => ys.length
  | _, xs, [] => xs.length
  | 0, _, _ => 0
  | fuel + 1, x :: xs, y :: ys =>
    if x = y then levGo fuel xs ys
    else 1 + min (levGo fuel xs (y :: ys)) (min (levGo fuel (x :: xs) ys) (levGo fuel xs ys))

/-- Levenshtein distance with unit costs. -/
def levenshtein (a b : List Char) : Nat := levGo (a.length + b.length) a b

/-- Configuration of an `EnumEntity` (ner/enum.ts): label, options as an
association from option name to example strings (host object key order),
minimum threshold (default 0.75), and the stemmer capability. -/
structure EnumConfig where
  label : List Char
  options : List (List Char × List (List Char))
  minThreshold : ℚ
  stem : List Char → List Char

/-- `EnumEntity.distance` (ner/enum.ts, lines 60-64): Levenshtein distance
of the stemmed forms. -/
def EnumEntity.distance (cfg : EnumConfig) (major minor : List Char) : Nat :=
  levenshtein (cfg.stem major) (cfg.stem minor)

/-- `EnumEntity.similarity` (ner/enum.ts, lines 73-77).  For the empty
`major` the host divides by zero into NaN; the rational division yields 0
instead, and `major` is always a non-empty token in every use. -/
def EnumEntity.similarity (cfg : EnumConfig) (major minor : List Char) : ℚ :=
  let leven := EnumEntity.distance cfg major minor
  let score := jsRound2 (((major.length : ℚ) - (leven : ℚ)) / (major.length : ℚ))
  max 0 score

/-- The similarity formula exactly as the specification words it. -/
def similaritySpec (cfg : EnumConfig) (major minor : List Char) : ℚ :=
  max 0 (jsRound2 (((major.length : ℚ)
    - (levenshtein (cfg.stem major) (cfg.stem minor) : ℚ)) / (major.length : ℚ)))

/-- `EnumEntity.match` (ner/enum.ts, lines 84-98): score the token against
every example of every option, then sort descending by score (stable). -/
def EnumEntity.matchToken (cfg : EnumConfig) (token : List Char) : List EntityMatch :=
  sortDescBy EntityMatch.score
    ((cfg.options.map (fun o =>
      o.2.map (fun ex =>
        ({ label := cfg.label, option := o.1, source := token,
           score := EnumEntity.similarity cfg token ex, index := 0 } : EntityMatch)))).flatten)

/-- Scanning loop of `String.prototype.indexOf`. -/
def indexOfGo (needle : List Char) : List Char → Int → Int
  | [], i => if needle.isEmpty then i else -1
  | c :: rest, i =>
    if needle.isPrefixOf (c :: rest) then i else indexOfGo needle rest (i + 1)

/-- `String.prototype.indexOf`: offset of the first occurrence of `needle`
in `hay`, -1 when absent. -/
def listIndexOf (hay needle : List Char) : Int := indexOfGo needle hay 0

/-- `String.prototype.replace` with a plain-string pattern: replace the
first occurrence only. -/
def replaceFirst (needle repl : List Char) : List Char → List Char
  | [] => if needle.isEmpty then repl else []
  | c :: rest =>
    if needle.isPrefixOf (c :: rest) then repl ++ (c :: rest).drop needle.length
    else c :: replaceFirst needle repl rest

/-- Final map of `EnumEntity.search`: locate each kept match in a working
copy of the input, blanking the found occurrence with spaces of equal
length so a repeated token cannot re-match the same position. -/
def enumSearchGo (working : List Char) : List EntityMatch → List EntityMatch
  | [] => []
  | e :: es =>
    let idx := listIndexOf working e.source
    let working2 := replaceFirst e.source (List.replicate e.source.length ' ') working
    { e with index := idx } :: enumSearchGo working2 es

/-- `EnumEntity.search` (ner/enum.ts, lines 37-51): tokenize, keep the
single best option per token, filter by the minimum threshold, then locate
the kept matches in the blanked working copy. -/
def EnumEntity.search (cfg : EnumConfig) (input : List Char) : List EntityMatch :=
  let tokens := tokenize input
  let best := (tokens.map (fun t => (EnumEntity.matchToken cfg t).take 1)).flatten
  let kept := best.filter (fun e => decide (cfg.minThreshold ≤ e.score))
  enumSearchGo input kept

/-- A stemmer mapping the token `aaaa` and everything else to unrelated
one-letter stems. -/
def adversarialStemmer (s : List Char) : List Char :=
  if s = "aaaa".toList then "b".toList else "c".toList

/-- An enumeration extractor at the default threshold whose stemmer shares
no characters between the token `aaaa` and the only option. -/
def adversarialEnum : EnumConfig :=
  { label := "adv".toList
    options := [("x".toList, ["x".toList])]
    minThreshold := 3/4
    stem := adversarialStemmer }

/-- An enumeration extractor at the default threshold with the identity
stemmer and a single option `hello`. -/
def plainEnum : EnumConfig :=
  { label := "greet".toList
    options := [("hello".toList, ["hello".toList])]
    minThreshold := 3/4
    stem := fun s => s }

/-- How a routine script finishes: returning normally or throwing. -/
inductive ScriptResult (E : Type) where
  | ok : ScriptResult E
  | err : E → ScriptResult E
deriving DecidableEq, Repr

/-- Observable behaviour of a routine script through its context: the
outputs it passes to `ctx.yield`, in order, and how it finishes.  On the
single-threaded cooperative model a script runs from one `yield` to the
next within the `process` call that resumes it. -/
structure ScriptSpec (Out E : Type) where
  yields : List Out
  result : ScriptResult E
deriving DecidableEq, Repr

/-- Outcome of one `process` call as its caller sees it: the returned
promise resolves with a yielded output, resolves with nothing, or
rejects. -/
inductive ProcessOutcome (Out E : Type) where
  | yielded : Out → ProcessOutcome Out E
  | nothing : ProcessOutcome Out E
  | rejected : E → ProcessOutcome Out E
deriving DecidableEq, Repr

/-- State of a `Routine` (routine.ts): whether `scriptPromise` exists,
whether the script has settled (`scriptResolved`), and the still-unrun
part of the script behaviour. -/
structure RoutineState (Out E : Type) where
  scriptStarted : Bool
  scriptResolved : Bool
  remaining : List Out
  result : ScriptResult E
deriving DecidableEq, Repr

/-- A fresh routine over the given script. -/
def Routine.init {Out E : Type} (spec : ScriptSpec Out E) : RoutineState Out E :=
  { scriptStarted := false
    scriptResolved := false
    remaining := spec.yields
    result := spec.result }

/-- Run the script from its current suspension point to the next one: it
either reaches its next `yield`, or finishes — the `.finally` handler of
the constructor marks the script resolved, and a failure rejects the
pending promise through `throwToGlobal`. -/
def runToSuspension {Out E : Type} (st : RoutineState Out E) :
    ProcessOutcome Out E × RoutineState Out E :=
  match st.remaining with
  | o :: rest => (.yielded o, { st with remaining := rest })
  | [] =>
    match st.result with
    | .ok => (.nothing, { st with scriptResolved := true })
    | .err e => (.rejected e, { st with scriptResolved := true })

/-- `Routine.process` (routine.ts, lines 143-159) as a state transition:
resolve immediately with nothing once the script has settled; start the
script on the first call; otherwise resume the pending `yield`.  The last
component records whether this call invoked the script function. -/
def Routine.process {Out E : Type} (st : RoutineState Out E) :
    ProcessOutcome Out E × RoutineState Out E × Bool :=
  if st.scriptResolved then (.nothing, st, false)
  else if !st.scriptStarted then
    let r := runToSuspension { st with scriptStarted := true }
    (r.1, r.2, true)
  else
    let r := runToSuspension st
    (r.1, r.2, false)

/-- `Routine.isDone` (routine.ts, lines 112-114). -/
def Routine.isDone {Out E : Type} (st : RoutineState Out E) : Bool := st.scriptResolved

/-- State after n serialized `process` calls. -/
def Routine.stateAfter {Out E : Type} (spec : ScriptSpec Out E) : Nat → RoutineState Out E
  | 0 => Routine.init spec
  | n + 1 => (Routine.process (Routine.stateAfter spec n)).2.1

/-- Outcome observed by the (n+1)-th serialized `process` call. -/
def Routine.callOutcome {Out E : Type} (spec : ScriptSpec Out E) (n : Nat) :
    ProcessOutcome Out E :=
  (Routine.process (Routine.stateAfter spec n)).1

/-- Whether the (n+1)-th serialized `process` call invoked the script. -/
def Routine.callInvokes {Out E : Type} (spec : ScriptSpec Out E) (n : Nat) : Bool :=
  (Routine.process (Routine.stateAfter spec n)).2.2

/-- `BotResponse` (bot.ts). -/
structure BotResponse where
  language : Option (List Char)
  intent : Option (List Char)
  answer : Option (List Char)
  classifications : List ClassifierMatch
  entities : List EntityMatch
deriving DecidableEq, Repr

/-- A learned document as the dialogue engine dispatches it: optional fixed
answers and an optional conversation handler.  The handler is abstracted by
its yield behaviour: each `ask`/`say` call yields the creation-turn
response merged with the update, so the handler is a list of functions from
that response to outputs, after which it returns (a failing handler is the
routine model with an `err` result). -/
structure BotDoc (Resp : Type) where
  answers : Option (List (List Char))
  handler : Option (List (Resp → Resp))

/-- The `Map` from user ids to active routines, as an association list. -/
def ConvoMap (Resp E : Type) : Type := List (List Char × RoutineState Resp E)

/-- `Map.prototype.get`. -/
def lookupConvo {Resp E : Type} (m : ConvoMap Resp E) (u : List Char) :
    Option (RoutineState Resp E) :=
  (m.find? (fun p => p.1 == u)).map Prod.snd

/-- `Map.prototype.set`. -/
def setConvo {Resp E : Type} (m : ConvoMap Resp E) (u : List Char)
    (st : RoutineState Resp E) : ConvoMap Resp E :=
  (u, st) :: m.filter (fun p => p.1 != u)

/-- `Map.prototype.delete`. -/
def delConvo {Resp E : Type} (m : ConvoMap Resp E) (u : List Char) : ConvoMap Resp E :=
  m.filter (fun p => p.1 != u)

/-- `Bot.processAnswer` (bot.ts, lines 270-312), with the classification
already carried by `res` and the per-user store elided (the abstracted
handler closes over its effect).  `sample` is the host random choice over
the answer list.  Steps 2A and 2C re-run the dispatch recursively after a
finished conversation is discarded or a new one is stored; the source
triggers that recursion without awaiting it and relies on it settling
before the caller observes the response (the behaviour its test suite
pins down), which the model renders as a plain recursive call; the fuel
bounds the recursion, which the source leaves unbounded (two levels
suffice for every case the theorems touch).  A rejecting conversation
propagates as `.error`. -/
def processAnswer {E : Type} (docs : List (List Char × BotDoc BotResponse))
    (sample : List (List Char) → Option (List Char)) :
    Nat → List Char → BotResponse → ConvoMap BotResponse E →
      Except E (BotResponse × ConvoMap BotResponse E)
  | 0, _, res, convos => .ok (res, convos)
  | fuel + 1, userId, res, convos =>
    let doc := res.intent.bind (fun i => (docs.find? (fun d => d.1 == i)).map Prod.snd)
    match lookupConvo convos userId with
    | some st =>
      match Routine.process st with
      | (.yielded out, st2, _) =>
        if Routine.isDone st2 then
          processAnswer docs sample fuel userId res (delConvo convos userId)
        else .ok (out, setConvo convos userId st2)
      | (.nothing, _, _) =>
        processAnswer docs sample fuel userId res (delConvo convos userId)
      | (.rejected e, _, _) => .error e
    | none =>
      match doc with
      | some d =>
        match d.answers with
        | some answers => .ok ({ res with answer := sample answers }, convos)
        | none =>
          match d.handler with
          | some hs =>
            let st0 : RoutineState BotResponse E := Routine.init ⟨hs.map (fun f => f res), .ok⟩
            processAnswer docs sample fuel userId res (setConvo convos userId st0)
          | none => .ok (res, convos)
      | none => .ok (res, convos)

/-- `Bot.process` (bot.ts, lines 238-246) for one serialized request: the
per-user lock serializes calls for one user id, classification is
abstracted as a pure function of the request (user id, text), and no
middleware is registered. -/
def botProcess {E : Type} (docs : List (List Char × BotDoc BotResponse))
    (sample : List (List Char) → Option (List Char))
    (classify : List Char × List Char → BotResponse) (fuel : Nat)
    (convos : ConvoMap BotResponse E) (req : List Char × List Char) :
    Except E (BotResponse × ConvoMap BotResponse E) :=
  processAnswer docs sample fuel req.1 (classify req) convos

/-- `BotDocument` (bot.ts): the learning sample handed to `addDocument`. -/
structure BotDocument where
  intent : List Char
  language : Option (List Char)
  examples : List (List Char)
  answers : Option (List (List Char))
deriving DecidableEq, Repr

/-- `Classifier.addDocument` (nlp/classifier.ts, lines 96-106): register
every example under the label `language/intent`, the language taken from
the document or auto-detected per example (`detect` abstracts the language
capability); fail when the document count did not grow.  The external
statistical classifier is modelled as accepting every example, so in the
model the count fails to grow exactly for an empty example list; the real
black box may also skip examples its own tokenizer rejects. -/
def Classifier.addDocument (detect : List Char → List Char)
    (cdocs : List (List Char × List Char)) (doc : BotDocument) :
    Except (List Char) (List (List Char × List Char)) :=
  let added := doc.examples.map (fun ex =>
    (ex, buildLabel doc.intent (doc.language.getD (detect ex))))
  if (cdocs ++ added).length = cdocs.length
  then .error "No new documents were added. Bad tokenizer?".toList
  else .ok (cdocs ++ added)

/-- The docs-map state of a Bot relevant to `addDocument`. -/
structure BotState where
  classifierDocs : List (List Char × List Char)
  docs : List (List Char × BotDocument)
deriving DecidableEq, Repr

/-- `Map.prototype.get` over the docs map. -/
def lookupDoc (m : List (List Char × BotDocument)) (i : List Char) : Option BotDocument :=
  (m.find? (fun p => p.1 == i)).map Prod.snd

/-- `Map.prototype.set` over the docs map. -/
def setDoc (m : List (List Char × BotDocument)) (i : List Char) (d : BotDocument) :
    List (List Char × BotDocument) :=
  (i, d) :: m.filter (fun p => p.1 != i)

/-- `Bot.addDocument` (bot.ts, lines 147-150): feed the document to the
classifier, then store it in the docs map keyed by intent — overwriting any
earlier document with the same intent, without any duplicate check. -/
def Bot.addDocument (detect : List Char → List Char) (st : BotState)
    (doc : BotDocument) : Except (List Char) BotState :=
  match Classifier.addDocument detect st.classifierDocs doc with
  | .error e => .error e
  | .ok cdocs => .ok { st with classifierDocs := cdocs, docs := setDoc st.docs doc.intent doc }

end Symon

namespace Symon

/-! Lemmas and claim theorems. -/

theorem resolveGo_nil (le : Int) : resolveGo le [] = [] := rfl

theorem resolveGo_cons (le : Int) (e : EntityMatch) (rest : List EntityMatch) :
    resolveGo le (e :: rest) =
      if e.index < le then resolveGo le rest
      else e :: resolveGo (e.index + (e.source.length : Int)) rest := rfl

theorem resolveGo_lowerBound (l : List EntityMatch) :
    ∀ le : Int, ∀ e ∈ resolveGo le l, le ≤ e.index := by
  induction l with
  | nil =>
    intro le e he
    rw [resolveGo_nil] at he
    exact absurd he (List.not_mem_nil e)
  | cons x rest ih =>
    intro le e he
    rw [resolveGo_cons] at he
    by_cases hx : x.index < le
    · rw [if_pos hx] at he
      exact ih le e he
    · rw [if_neg hx] at he
      rcases List.mem_cons.mp he with rfl | he
      · exact le_of_not_lt hx
      · have h1 := ih (x.index + (x.source.length : Int)) e he
        have h2 : (0 : Int) ≤ (x.source.length : Int) := Int.ofNat_nonneg _
        omega

theorem resolveGo_pairwise (l : List EntityMatch) :
    ∀ le : Int,
      (resolveGo le l).Pairwise (fun a b => a.index + (a.source.length : Int) ≤ b.index) := by
  induction l with
  | nil =>
    intro le
    rw [resolveGo_nil]
    exact List.Pairwise.nil
  | cons x rest ih =>
    intro le
    rw [resolveGo_cons]
    by_cases hx : x.index < le
    · rw [if_pos hx]
      exact ih le
    · rw [if_neg hx]
      refine List.Pairwise.cons ?_ (ih _)
      intro e he
      exact resolveGo_lowerBound rest _ e he

theorem mem_insertByIndex {x e : EntityMatch} {l : List EntityMatch} :
    x ∈ insertByIndex e l ↔ x = e ∨ x ∈ l := by
  induction l with
  | nil => simp [insertByIndex]
  | cons y ys ih =>
    simp only [insertByIndex]
    split_ifs with h
    · rw [List.mem_cons, ih, List.mem_cons]
      tauto
    · simp only [List.mem_cons]

theorem mem_sortByIndex {x : EntityMatch} {l : List EntityMatch} :
    x ∈ sortByIndex l ↔ x ∈ l := by
  induction l with
  | nil => simp [sortByIndex]
  | cons y ys ih =>
    simp only [sortByIndex, mem_insertByIndex, ih, List.mem_cons]

theorem resolveGo_subset (l : List EntityMatch) :
    ∀ (le : Int) (e : EntityMatch), e ∈ resolveGo le l → e ∈ l := by
  induction l with
  | nil =>
    intro le e he
    rw [resolveGo_nil] at he
    exact absurd he (List.not_mem_nil e)
  | cons x rest ih =>
    intro le e he
    rw [resolveGo_cons] at he
    by_cases hx : x.index < le
    · rw [if_pos hx] at he
      exact List.mem_cons_of_mem x (ih le e he)
    · rw [if_neg hx] at he
      rcases List.mem_cons.mp he with rfl | he
      · exact List.mem_cons_self e rest
      · exact List.mem_cons_of_mem x (ih _ e he)

theorem resolveGo_validFrom (original : List Char) (l : List EntityMatch) :
    ∀ le : Int, 0 ≤ le →
      (∀ e ∈ l, 0 ≤ e.index ∧ e.start + e.source.length ≤ original.length) →
      validFrom original le.toNat (resolveGo le l) := by
  induction l with
  | nil =>
    intro le _ _
    rw [resolveGo_nil]
    trivial
  | cons x rest ih =>
    intro le hle hb
    rw [resolveGo_cons]
    by_cases hx : x.index < le
    · rw [if_pos hx]
      exact ih le hle (fun e he => hb e (List.mem_cons_of_mem x he))
    · rw [if_neg hx]
      obtain ⟨h0, h1⟩ := hb x (List.mem_cons_self x rest)
      have hxle : le ≤ x.index := le_of_not_lt hx
      have htail := ih (x.index + (x.source.length : Int)) (by omega)
        (fun e he => hb e (List.mem_cons_of_mem x he))
      have hcast : (x.index + (x.source.length : Int)).toNat
          = x.start + x.source.length := by
        simp only [EntityMatch.start]
        omega
      rw [hcast] at htail
      refine ⟨by omega, ?_, h1, htail⟩
      simp only [EntityMatch.start]
      omega

theorem template_go (original : List Char) (ms : List EntityMatch) :
    ∀ (pos : Nat) (pre : List Char), validFrom original pos ms → pos ≤ original.length →
      ms.foldl (applySub original.length) (pre ++ original.drop pos)
        = pre ++ renderFrom original pos ms := by
  induction ms with
  | nil =>
    intro pos pre _ _
    simp [renderFrom]
  | cons m ms ih =>
    intro pos pre hv hpos
    obtain ⟨h0, h1, h2, h3⟩ := hv
    rw [List.foldl_cons]
    have e1 : (m.index - ((original.length : Int)
          - ((pre ++ original.drop pos).length : Int))).toNat
        = pre.length + (m.start - pos) := by
      simp only [List.length_append, List.length_drop, EntityMatch.start] at *
      omega
    have e2 : ((m.index - ((original.length : Int)
          - ((pre ++ original.drop pos).length : Int))) + (m.source.length : Int)).toNat
        = pre.length + ((m.start - pos) + m.source.length) := by
      simp only [List.length_append, List.length_drop, EntityMatch.start] at *
      omega
    have hstep : applySub original.length (pre ++ original.drop pos) m
        = (pre ++ ((original.drop pos).take (m.start - pos) ++ percentLabel m.label))
          ++ original.drop (m.start + m.source.length) := by
      simp only [applySub]
      rw [e1, e2, List.take_append, List.drop_append, List.drop_drop]
      have harg : pos + ((m.start - pos) + m.source.length) = m.start + m.source.length := by
        omega
      rw [harg]
      simp [List.append_assoc]
    rw [hstep]
    have hrec := ih (m.start + m.source.length)
      (pre ++ ((original.drop pos).take (m.start - pos) ++ percentLabel m.label)) h3 h2
    rw [hrec]
    show _ = pre ++ renderFrom original pos (m :: ms)
    simp only [renderFrom]
    simp [List.append_assoc]

/-- C1: `EntityManager.search` never returns two overlapping matches, and on
the registry holding `/a{2,}/g` labelled `a` and `/ab/g` labelled `ab`, the
input `"aaab ab"` yields exactly the matches (a, "aaa", 0) and (ab, "ab", 5). -/
theorem entityManager_search_disjoint_and_example :
    (∀ (extractors : List (List Char → List EntityMatch)) (input : List Char),
      (EntityManager.search extractors input).Pairwise spansDisjoint)
    ∧ EntityManager.search
        [RegexpEntity.search "a".toList patARun, RegexpEntity.search "ab".toList patAB]
        "aaab ab".toList
      = [{ label := "a".toList, option := "aaa".toList, source := "aaa".toList,
           score := 1, index := 0 },
         { label := "ab".toList, option := "ab".toList, source := "ab".toList,
           score := 1, index := 5 }] := by
  constructor
  · intro extractors input
    have h := resolveGo_pairwise (sortByIndex ((extractors.map (fun e => e input)).flatten)) 0
    exact h.imp (fun hab => Or.inl hab)
  · decide

/-- C2: `Entity.template` applied to the matches returned by
`EntityManager.search` yields the original string in which each kept span is
replaced by `%label%` and every character outside the kept spans is
unchanged (formally: it equals the left-to-right `renderFrom` rendition),
provided every extractor only reports matches lying inside the input; in
particular the template of `"aaab ab"` under `/a{2,}/g` labelled `a` and
`/ab/g` labelled `ab` is `"%a%b %ab%"`. -/
theorem entity_template_of_search :
    (∀ (extractors : List (List Char → List EntityMatch)) (input : List Char),
      (∀ e ∈ (extractors.map (fun f => f input)).flatten,
          0 ≤ e.index ∧ e.start + e.source.length ≤ input.length) →
      Entity.template input (EntityManager.search extractors input)
        = renderFrom input 0 (EntityManager.search extractors input))
    ∧ Entity.template "aaab ab".toList
        (EntityManager.search
          [RegexpEntity.search "a".toList patARun, RegexpEntity.search "ab".toList patAB]
          "aaab ab".toList)
      = "%a%b %ab%".toList := by
  constructor
  · intro extractors input hb
    have hv := resolveGo_validFrom input
      (sortByIndex ((extractors.map (fun f => f input)).flatten)) 0 le_rfl
      (fun e he => hb e (mem_sortByIndex.mp he))
    have hv0 : validFrom input 0 (EntityManager.search extractors input) := by
      simp only [EntityManager.search]
      exact hv
    have h := template_go input (EntityManager.search extractors input) 0 [] hv0
      (Nat.zero_le _)
    simpa [Entity.template] using h
  · decide

/-- Witness for C2: the in-bounds hypothesis holds for the concrete registry
of the two regular-expression extractors on `"aaab ab"`. -/
theorem entity_template_of_search_witness :
    Entity.template "aaab ab".toList
        (EntityManager.search
          [RegexpEntity.search "a".toList patARun, RegexpEntity.search "ab".toList patAB]
          "aaab ab".toList)
      = renderFrom "aaab ab".toList 0
          (EntityManager.search
            [RegexpEntity.search "a".toList patARun, RegexpEntity.search "ab".toList patAB]
            "aaab ab".toList) :=
  entity_template_of_search.1
    [RegexpEntity.search "a".toList patARun, RegexpEntity.search "ab".toList patAB]
    "aaab ab".toList (by decide)

/-- C3: with the default threshold 0.75 and deviation 0.05, the winning
intent is the head intent exactly when the top score reaches the threshold
and the gap to the second score reaches the deviation, and null otherwise;
scores (0.6, 0.55) give null and (0.9, 0.1) give the top intent. -/
theorem bot_intent_gating :
    (∀ (cls : List ClassifierMatch) (i : List Char),
      determineIntent Bot.defaultMinThreshold Bot.defaultMinDeviation cls = some i
        ↔ ∃ c cs, cls = c :: cs ∧ i = c.intent
            ∧ Bot.defaultMinThreshold ≤ topScore cls
            ∧ Bot.defaultMinDeviation ≤ topScore cls - secondScore cls)
    ∧ (∀ cls : List ClassifierMatch,
        ¬(Bot.defaultMinThreshold ≤ topScore cls
            ∧ Bot.defaultMinDeviation ≤ topScore cls - secondScore cls)
        → determineIntent Bot.defaultMinThreshold Bot.defaultMinDeviation cls = none)
    ∧ determineIntent Bot.defaultMinThreshold Bot.defaultMinDeviation
        [⟨"x".toList, "en".toList, 3/5⟩, ⟨"y".toList, "en".toList, 11/20⟩] = none
    ∧ determineIntent Bot.defaultMinThreshold Bot.defaultMinDeviation
        [⟨"x".toList, "en".toList, 9/10⟩, ⟨"y".toList, "en".toList, 1/10⟩]
      = some "x".toList := by
  refine ⟨?_, ?_, by with_unfolding_all decide, by with_unfolding_all decide⟩
  · intro cls i
    simp only [determineIntent, topScore, secondScore]
    constructor
    · intro h
      split_ifs at h with hcond
      · cases cls with
        | nil => simp at h
        | cons c cs =>
          simp only [List.getElem?_cons_zero, Option.map_some', Option.some.injEq] at h
          exact ⟨c, cs, rfl, h.symm, hcond.1, hcond.2⟩
    · rintro ⟨c, cs, rfl, rfl, h1, h2⟩
      rw [if_pos ⟨h1, h2⟩]
      simp
  · intro cls hn
    simp only [topScore, secondScore] at hn
    simp only [determineIntent]
    rw [if_neg hn]

/-- Witness for C3: both hypothetical components applied at concrete lists. -/
theorem bot_intent_gating_witness :
    determineIntent Bot.defaultMinThreshold Bot.defaultMinDeviation
        [⟨"x".toList, "en".toList, 9/10⟩, ⟨"y".toList, "en".toList, 1/10⟩]
      = some "x".toList
    ∧ determineIntent Bot.defaultMinThreshold Bot.defaultMinDeviation
        [⟨"x".toList, "en".toList, 3/5⟩, ⟨"y".toList, "en".toList, 11/20⟩] = none :=
  ⟨(bot_intent_gating.1 _ _).mpr
      ⟨⟨"x".toList, "en".toList, 9/10⟩, [⟨"y".toList, "en".toList, 1/10⟩], rfl, rfl,
        by with_unfolding_all decide, by with_unfolding_all decide⟩,
    bot_intent_gating.2.1 _ (by with_unfolding_all decide)⟩

theorem parseLabelGo_buildLabel (intent : List Char) (hi : intent ≠ []) :
    ∀ language pre : List Char, '/' ∉ language → (pre ≠ [] ∨ language ≠ []) →
      parseLabelGo pre (language ++ '/' :: intent) = some (pre.reverse ++ language, intent) := by
  intro language
  induction language with
  | nil =>
    intro pre _ hne
    have hpre : pre ≠ [] := by tauto
    simp [List.nil_append, parseLabelGo, hpre, hi]
  | cons c cs ih =>
    intro pre hs _
    have hcne : ¬ c = '/' := by
      intro he
      subst he
      exact hs (List.mem_cons_self _ _)
    simp only [List.cons_append, parseLabelGo]
    rw [if_neg (by tauto)]
    show parseLabelGo (c :: pre) (cs ++ '/' :: intent) = _
    rw [ih (c :: pre) (fun hm => hs (List.mem_cons_of_mem c hm)) (Or.inl (by simp))]
    simp

theorem parseLabel_buildLabel {intent language : List Char}
    (hl : language ≠ []) (hs : '/' ∉ language) (hi : intent ≠ []) :
    parseLabel (buildLabel intent language) = some (language, intent) := by
  have h := parseLabelGo_buildLabel intent hi language [] hs (Or.inr hl)
  simpa [parseLabel, buildLabel] using h

theorem buildLabel_inj {i1 l1 i2 l2 : List Char}
    (hl1 : l1 ≠ []) (hs1 : '/' ∉ l1) (hi1 : i1 ≠ [])
    (hl2 : l2 ≠ []) (hs2 : '/' ∉ l2) (hi2 : i2 ≠ [])
    (h : buildLabel i1 l1 = buildLabel i2 l2) : l1 = l2 ∧ i1 = i2 := by
  have p1 := parseLabel_buildLabel hl1 hs1 hi1
  have p2 := parseLabel_buildLabel hl2 hs2 hi2
  rw [h, p2] at p1
  simp only [Option.some.injEq, Prod.mk.injEq] at p1
  exact ⟨p1.1.symm, p1.2.symm⟩

theorem mem_of_mem_firstOccurrencesGo (l : List (List Char)) :
    ∀ seen k, k ∈ firstOccurrencesGo seen l → k ∈ l := by
  induction l with
  | nil =>
    intro seen k hk
    simp [firstOccurrencesGo] at hk
  | cons x xs ih =>
    intro seen k hk
    simp only [firstOccurrencesGo] at hk
    split_ifs at hk with hx
    · exact List.mem_cons_of_mem x (ih seen k hk)
    · rcases List.mem_cons.mp hk with rfl | hk
      · exact List.mem_cons_self _ _
      · exact List.mem_cons_of_mem x (ih _ k hk)

theorem notMem_seen_of_mem_firstOccurrencesGo (l : List (List Char)) :
    ∀ seen k, k ∈ firstOccurrencesGo seen l → k ∉ seen := by
  induction l with
  | nil =>
    intro seen k hk
    simp [firstOccurrencesGo] at hk
  | cons x xs ih =>
    intro seen k hk
    simp only [firstOccurrencesGo] at hk
    split_ifs at hk with hx
    · exact ih seen k hk
    · rcases List.mem_cons.mp hk with rfl | hk
      · exact hx
      · intro hks
        exact ih _ k hk (List.mem_cons_of_mem x hks)

theorem nodup_firstOccurrencesGo (l : List (List Char)) :
    ∀ seen, (firstOccurrencesGo seen l).Nodup := by
  induction l with
  | nil =>
    intro seen
    simp [firstOccurrencesGo]
  | cons x xs ih =>
    intro seen
    simp only [firstOccurrencesGo]
    split_ifs with hx
    · exact ih seen
    · rw [List.nodup_cons]
      refine ⟨?_, ih _⟩
      intro hmem
      exact notMem_seen_of_mem_firstOccurrencesGo xs _ x hmem (List.mem_cons_self _ _)

theorem mem_firstOccurrencesGo_of_mem (l : List (List Char)) :
    ∀ seen k, k ∈ l → k ∉ seen → k ∈ firstOccurrencesGo seen l := by
  induction l with
  | nil =>
    intro seen k hk
    simp at hk
  | cons x xs ih =>
    intro seen k hk hks
    simp only [firstOccurrencesGo]
    rcases List.mem_cons.mp hk with rfl | hk
    · rw [if_neg hks]
      exact List.mem_cons_self _ _
    · split_ifs with hx
      · exact ih seen k hk hks
      · by_cases hkx : k = x
        · subst hkx
          exact List.mem_cons_self _ _
        · refine List.mem_cons_of_mem x (ih _ k hk ?_)
          simp only [List.mem_cons, not_or]
          exact ⟨hkx, hks⟩

theorem mapM_eq_some_map {α β : Type} (g : α → Option β) (h : α → β) :
    ∀ l : List α, (∀ a ∈ l, g a = some (h a)) → l.mapM g = some (l.map h) := by
  intro l
  induction l with
  | nil => intro _; rfl
  | cons a as ih =>
    intro hg
    rw [List.map_cons, List.mapM_cons, hg a (List.mem_cons_self _ _),
      ih (fun b hb => hg b (List.mem_cons_of_mem a hb))]
    rfl

theorem keyScore_append (language intent : List Char) (l1 l2 : List ClassifierMatch) :
    keyScore language intent (l1 ++ l2)
      = keyScore language intent l1 + keyScore language intent l2 := by
  simp [keyScore, List.filter_append]

theorem sum_filter_map_entry (p : ClassifierMatch → Bool) (k0 : List Char)
    (entry : List Char → ClassifierMatch) :
    ∀ keys : List (List Char), keys.Nodup →
      (∀ k ∈ keys, (p (entry k) = true ↔ k = k0)) →
      (((keys.map entry).filter p).map ClassifierMatch.score).sum
        = if k0 ∈ keys then (entry k0).score else 0 := by
  intro keys
  induction keys with
  | nil =>
    intro _ _
    simp
  | cons k ks ih =>
    intro hnd hiff
    rw [List.nodup_cons] at hnd
    rw [List.map_cons]
    by_cases hp : p (entry k) = true
    · have hk : k = k0 := (hiff k (List.mem_cons_self _ _)).mp hp
      subst hk
      rw [List.filter_cons_of_pos hp, List.map_cons, List.sum_cons]
      have hrest := ih hnd.2 (fun q hq => hiff q (List.mem_cons_of_mem _ hq))
      rw [if_neg hnd.1] at hrest
      rw [hrest, if_pos (List.mem_cons_self _ _)]
      ring
    · have hk : ¬ k0 = k := fun he => hp ((hiff k (List.mem_cons_self _ _)).mpr he.symm)
      rw [List.filter_cons_of_neg (by simpa using hp)]
      rw [ih hnd.2 (fun q hq => hiff q (List.mem_cons_of_mem _ hq))]
      by_cases hmem : k0 ∈ ks
      · rw [if_pos hmem, if_pos (List.mem_cons_of_mem _ hmem)]
      · rw [if_neg hmem, if_neg (by simp [List.mem_cons, hk, hmem])]

theorem mergeStep_spec (acc curr : List ClassifierMatch)
    (hwf : ∀ c ∈ acc ++ curr, WellFormedMatch c) :
    ∃ merged, mergeStep acc curr = some merged
      ∧ (∀ c ∈ merged, WellFormedMatch c)
      ∧ ∀ language intent, language ≠ [] → '/' ∉ language → intent ≠ [] →
          keyScore language intent merged
            = keyScore language intent acc + keyScore language intent curr := by
  classical
  set all := acc ++ curr with hall
  set keys := firstOccurrences (all.map (fun c => buildLabel c.intent c.language)) with hkeys
  have hkey_src : ∀ k ∈ keys, ∃ c ∈ all, k = buildLabel c.intent c.language := by
    intro k hk
    have hm : k ∈ all.map (fun c => buildLabel c.intent c.language) :=
      mem_of_mem_firstOccurrencesGo _ _ k hk
    obtain ⟨c, hc, he⟩ := List.mem_map.mp hm
    exact ⟨c, hc, he.symm⟩
  set entry : List Char → ClassifierMatch := fun key =>
    { language := ((parseLabel key).getD ([], [])).1
      intent := ((parseLabel key).getD ([], [])).2
      score := ((all.filter (fun c => buildLabel c.intent c.language == key)).map
          ClassifierMatch.score).sum } with hentry
  have hparse : ∀ k ∈ keys, ∀ c ∈ all, k = buildLabel c.intent c.language →
      parseLabel k = some (c.language, c.intent) := by
    intro k _ c hc he
    obtain ⟨hl1, hs1, _, hi1, _⟩ := hwf c hc
    exact he ▸ parseLabel_buildLabel hl1 hs1 hi1
  have hg : ∀ k ∈ keys,
      (parseLabel k).map (fun p =>
        ({ language := p.1
           intent := p.2
           score := ((all.filter (fun c => buildLabel c.intent c.language == k)).map
              ClassifierMatch.score).sum } : ClassifierMatch)) = some (entry k) := by
    intro k hk
    obtain ⟨c, hc, he⟩ := hkey_src k hk
    rw [hparse k hk c hc he, hentry]
    simp [hparse k hk c hc he]
  have hmerge : mergeStep acc curr = some (keys.map entry) := by
    rw [mergeStep]
    exact mapM_eq_some_map _ entry keys hg
  refine ⟨keys.map entry, hmerge, ?_, ?_⟩
  · intro c' hc'
    obtain ⟨k, hk, he'⟩ := List.mem_map.mp hc'
    obtain ⟨c, hc, he⟩ := hkey_src k hk
    obtain ⟨hl1, hs1, hn1, hi1, hn2⟩ := hwf c hc
    have hp := hparse k hk c hc he
    rw [← he', hentry]
    simp only [hp, Option.getD_some]
    exact ⟨hl1, hs1, hn1, hi1, hn2⟩
  · intro language intent h1 h2 h3
    have hiff : ∀ k ∈ keys,
        ((fun c => c.language == language && c.intent == intent) (entry k) = true
          ↔ k = buildLabel intent language) := by
      intro k hk
      obtain ⟨c, hc, he⟩ := hkey_src k hk
      obtain ⟨hl1, hs1, _, hi1, _⟩ := hwf c hc
      have hp := hparse k hk c hc he
      constructor
      · intro hb
        rw [hentry] at hb
        simp only [hp, Option.getD_some, Bool.and_eq_true, beq_iff_eq] at hb
        rw [he, hb.1, hb.2]
      · intro hke
        have := buildLabel_inj hl1 hs1 hi1 h1 h2 h3 (by rw [← he, hke])
        rw [hentry]
        simp only [hp, Option.getD_some, Bool.and_eq_true, beq_iff_eq]
        exact ⟨this.1, this.2⟩
    have hsum := sum_filter_map_entry
      (fun c => c.language == language && c.intent == intent)
      (buildLabel intent language) entry keys (nodup_firstOccurrencesGo _ _) hiff
    rw [← keyScore_append, ← hall]
    show keyScore language intent (keys.map entry) = keyScore language intent all
    rw [keyScore, hsum]
    by_cases hmem : buildLabel intent language ∈ keys
    · rw [if_pos hmem]
      rw [hentry]
      simp only
      rw [keyScore]
      congr 2
      apply List.filter_congr
      intro c hc
      obtain ⟨hl1, hs1, _, hi1, _⟩ := hwf c hc
      rw [Bool.eq_iff_iff]
      simp only [Bool.and_eq_true, beq_iff_eq]
      constructor
      · intro hke
        have hinj := buildLabel_inj hl1 hs1 hi1 h1 h2 h3 hke
        exact ⟨hinj.1, hinj.2⟩
      · intro hpa
        rw [hpa.1, hpa.2]
    · rw [if_neg hmem]
      rw [keyScore]
      have hnil : all.filter (fun c => c.language == language && c.intent == intent) = [] := by
        apply List.filter_eq_nil_iff.mpr
        intro c hc hpc
        simp only [Bool.and_eq_true, beq_iff_eq] at hpc
        apply hmem
        have hbuild : buildLabel intent language = buildLabel c.intent c.language := by
          rw [hpc.1, hpc.2]
        rw [hbuild]
        apply mem_firstOccurrencesGo_of_mem
        · exact List.mem_map.mpr ⟨c, hc, rfl⟩
        · simp
      rw [hnil]
      simp

theorem foldlM_mergeStep_spec (ls : List (List ClassifierMatch)) :
    ∀ acc : List ClassifierMatch, (∀ c ∈ acc, WellFormedMatch c) →
      (∀ l ∈ ls, ∀ c ∈ l, WellFormedMatch c) →
      ∃ merged, ls.foldlM mergeStep acc = some merged
        ∧ (∀ c ∈ merged, WellFormedMatch c)
        ∧ ∀ language intent, language ≠ [] → '/' ∉ language → intent ≠ [] →
            keyScore language intent merged
              = keyScore language intent acc + (ls.map (keyScore language intent)).sum := by
  induction ls with
  | nil =>
    intro acc hacc _
    exact ⟨acc, rfl, hacc, fun language intent _ _ _ => by simp⟩
  | cons x xs ih =>
    intro acc hacc hls
    obtain ⟨m1, hm1, hwf1, hks1⟩ := mergeStep_spec acc x (by
      intro c hc
      rcases List.mem_append.mp hc with hc | hc
      · exact hacc c hc
      · exact hls x (List.mem_cons_self _ _) c hc)
    obtain ⟨m2, hm2, hwf2, hks2⟩ := ih m1 hwf1
      (fun l hl => hls l (List.mem_cons_of_mem _ hl))
    refine ⟨m2, ?_, hwf2, ?_⟩
    · show (mergeStep acc x >>= fun a => xs.foldlM mergeStep a) = some m2
      rw [hm1]
      simpa using hm2
    · intro language intent h1 h2 h3
      rw [hks2 _ _ h1 h2 h3, hks1 _ _ h1 h2 h3, List.map_cons, List.sum_cons]
      ring

theorem mem_insertDescBy {α : Type} (f : α → ℚ) (e y : α) :
    ∀ l : List α, y ∈ insertDescBy f e l ↔ y = e ∨ y ∈ l := by
  intro l
  induction l with
  | nil => simp [insertDescBy]
  | cons x xs ih =>
    simp only [insertDescBy]
    split_ifs with h
    · rw [List.mem_cons, ih, List.mem_cons]
      tauto
    · simp only [List.mem_cons]

theorem sorted_insertDescBy {α : Type} (f : α → ℚ) (e : α) :
    ∀ l : List α, l.Pairwise (fun a b => f b ≤ f a) →
      (insertDescBy f e l).Pairwise (fun a b => f b ≤ f a) := by
  intro l
  induction l with
  | nil =>
    intro _
    simp [insertDescBy]
  | cons x xs ih =>
    intro hl
    rw [List.pairwise_cons] at hl
    simp only [insertDescBy]
    split_ifs with h
    · rw [List.pairwise_cons]
      refine ⟨?_, ih hl.2⟩
      intro y hy
      rcases (mem_insertDescBy f e y xs).mp hy with rfl | hy
      · exact le_of_lt h
      · exact hl.1 y hy
    · rw [List.pairwise_cons]
      refine ⟨?_, List.Pairwise.cons hl.1 hl.2⟩
      intro y hy
      rcases List.mem_cons.mp hy with rfl | hy
      · exact le_of_not_lt h
      · exact le_trans (hl.1 y hy) (le_of_not_lt h)

theorem sorted_sortDescBy {α : Type} (f : α → ℚ) (l : List α) :
    (sortDescBy f l).Pairwise (fun a b => f b ≤ f a) := by
  induction l with
  | nil => simp [sortDescBy]
  | cons x xs ih => exact sorted_insertDescBy f x _ ih

theorem sum_map_mul_ratio (l : List ClassifierMatch)
    (h : (l.map ClassifierMatch.score).sum ≠ 0) :
    (l.map (fun c => c.score * (1 / (l.map ClassifierMatch.score).sum))).sum = 1 := by
  rw [show (fun c : ClassifierMatch => c.score * (1 / (l.map ClassifierMatch.score).sum))
      = fun c : ClassifierMatch =>
        ClassifierMatch.score c * (1 / (l.map ClassifierMatch.score).sum) from rfl]
  rw [List.sum_map_mul_right]
  field_simp

theorem classifyEx_wf : ∀ s : List Char, ∀ c ∈ classifyEx s, WellFormedMatch c := by
  intro s c hc
  rw [classifyEx] at hc
  split_ifs at hc <;> simp only [List.mem_cons, List.not_mem_nil, or_false] at hc
  all_goals subst hc
  all_goals simp only [WellFormedMatch]
  all_goals with_unfolding_all decide

/-- C4 (amended): `classifyText` with at most one non-empty sentence returns
`classify(input)` unchanged; with several sentences it classifies each
sentence, drops empty per-sentence results, merges by summing scores per
(language, intent) key, multiplies each merged score by the reciprocal of
the total — so the normalized scores sum to exactly 1 before each of them
is rounded to 2 decimals (the returned rounded scores can deviate from
summing to 1) — and returns the rounded list sorted descending by score;
the 3:1 weighted two-intent example yields scores 0.75 and 0.25. -/
theorem classifyText_spec :
    (∀ (classify : List Char → List ClassifierMatch) (input : List Char),
        (sentencesOf input).length ≤ 1 →
        classifyTextM classify input = some (classify input))
    ∧ (∀ (classify : List Char → List ClassifierMatch) (input : List Char),
        1 < (sentencesOf input).length →
        (∀ s, ∀ c ∈ classify s, WellFormedMatch c) →
        ∃ merged,
          (sentenceClassifications classify input).foldlM mergeStep [] = some merged
          ∧ (∀ language intent, language ≠ [] → '/' ∉ language → intent ≠ [] →
              keyScore language intent merged
                = ((sentenceClassifications classify input).map
                    (keyScore language intent)).sum)
          ∧ ((merged.map ClassifierMatch.score).sum ≠ 0 →
              (merged.map (fun c =>
                c.score * (1 / (merged.map ClassifierMatch.score).sum))).sum = 1)
          ∧ classifyTextM classify input
            = some (sortDescBy ClassifierMatch.score
                (merged.map (fun c =>
                  { c with score := jsRound2 (c.score
                      * (1 / (merged.map ClassifierMatch.score).sum)) }))))
    ∧ (∀ (classify : List Char → List ClassifierMatch) (input : List Char)
          (l : List ClassifierMatch),
        1 < (sentencesOf input).length → classifyTextM classify input = some l →
        l.Pairwise (fun a b => b.score ≤ a.score))
    ∧ classifyTextM classifyEx "a. b. c".toList
      = some [⟨"A".toList, "en".toList, 3/4⟩, ⟨"B".toList, "en".toList, 1/4⟩] := by
  refine ⟨?_, ?_, ?_, by with_unfolding_all decide⟩
  · intro classify input hlen
    simp only [classifyTextM]
    rw [if_pos hlen]
  · intro classify input hlen hwf
    obtain ⟨merged, hfold, hwfm, hks⟩ := foldlM_mergeStep_spec
      (sentenceClassifications classify input) []
      (by intro c hc; simp at hc)
      (by
        intro l hl c hc
        have hl2 := List.mem_of_mem_filter hl
        obtain ⟨s, _, rfl⟩ := List.mem_map.mp hl2
        exact hwf s c hc)
    refine ⟨merged, hfold, ?_, ?_, ?_⟩
    · intro language intent h1 h2 h3
      rw [hks _ _ h1 h2 h3]
      simp [keyScore]
    · intro hsum
      exact sum_map_mul_ratio merged hsum
    · simp only [classifyTextM]
      rw [if_neg (by omega)]
      show ((sentenceClassifications classify input).foldlM mergeStep []).bind _ = _
      rw [hfold]
      rfl
  · intro classify input l hlen h
    simp only [classifyTextM] at h
    rw [if_neg (by omega)] at h
    cases hfold : (((sentencesOf input).map classify).filter
        (fun l => decide (0 < l.length))).foldlM mergeStep [] with
    | none =>
      rw [hfold] at h
      simp at h
    | some m =>
      rw [hfold] at h
      have hl : l = sortDescBy ClassifierMatch.score
          (m.map (fun c => { c with score := jsRound2 (c.score
            * (1 / (m.map ClassifierMatch.score).sum)) })) := by
        simpa using h.symm
      rw [hl]
      exact sorted_sortDescBy _ _

/-- Witness for C4: all hypothetical components applied at concrete inputs
(the single-sentence case at `"a"`, the merge and sortedness cases at the
three-sentence `"a. b. c"`). -/
theorem classifyText_spec_witness :
    classifyTextM classifyEx "a".toList = some (classifyEx "a".toList)
    ∧ ([⟨"A".toList, "en".toList, 3/4⟩, ⟨"B".toList, "en".toList, 1/4⟩] :
        List ClassifierMatch).Pairwise (fun a b => b.score ≤ a.score)
    ∧ ∃ merged,
        (sentenceClassifications classifyEx "a. b. c".toList).foldlM mergeStep []
          = some merged
        ∧ ((merged.map ClassifierMatch.score).sum ≠ 0 →
            (merged.map (fun c =>
              c.score * (1 / (merged.map ClassifierMatch.score).sum))).sum = 1) := by
  refine ⟨classifyText_spec.1 classifyEx "a".toList (by with_unfolding_all decide),
    classifyText_spec.2.2.1 classifyEx "a. b. c".toList _ (by with_unfolding_all decide)
      classifyText_spec.2.2.2, ?_⟩
  obtain ⟨merged, hfold, _, hsum, _⟩ := classifyText_spec.2.1 classifyEx "a. b. c".toList
    (by with_unfolding_all decide) classifyEx_wf
  exact ⟨merged, hfold, hsum⟩

theorem mapM_map_post {α β γ : Type} (f : α → Option β) (h : β → γ) :
    ∀ l : List α, l.mapM (fun a => (f a).map h) = (l.mapM f).map (fun bs => bs.map h) := by
  intro l
  induction l with
  | nil => rfl
  | cons a as ih =>
    rw [List.mapM_cons, List.mapM_cons, ih]
    cases f a <;> cases as.mapM f <;> rfl

/-- C5: `classify` fails when the classifier is untrained; otherwise, on raw
scores whose labels all parse, it returns exactly the specification policy:
round to 2 decimals, discard non-positive scores, and exactly when more
than one survives, discard scores at or below the mean of the survivors. -/
theorem classify_spec :
    (∀ raw : List (List Char × ℚ), classifyM false raw = none)
    ∧ (∀ (raw : List (List Char × ℚ)) (cls : List ClassifierMatch),
        raw.mapM (fun r => (parseLabel r.1).map (fun p =>
          ({ intent := p.2, language := p.1, score := r.2 } : ClassifierMatch))) = some cls →
        classifyM true raw = some (classifySpecPolicy cls)) := by
  constructor
  · intro raw
    rfl
  · intro raw cls h
    have hpost := mapM_map_post
      (fun r : List Char × ℚ => (parseLabel r.1).map (fun p =>
        ({ intent := p.2, language := p.1, score := r.2 } : ClassifierMatch)))
      (fun c => { c with score := jsRound2 c.score }) raw
    rw [h] at hpost
    have hagree : (fun r : List Char × ℚ => ((parseLabel r.1).map (fun p =>
          ({ intent := p.2, language := p.1, score := r.2 } : ClassifierMatch))).map
            (fun c => { c with score := jsRound2 c.score }))
        = fun r : List Char × ℚ => (parseLabel r.1).map (fun p =>
          ({ intent := p.2, language := p.1, score := jsRound2 r.2 } : ClassifierMatch)) := by
      funext r
      rw [Option.map_map]
      rfl
    rw [hagree] at hpost
    show (raw.mapM (fun r => (parseLabel r.1).map (fun p =>
        ({ intent := p.2, language := p.1, score := jsRound2 r.2 } : ClassifierMatch)))).bind _
      = some (classifySpecPolicy cls)
    rw [hpost]
    simp only [Option.map_some', Option.some_bind, classifySpecPolicy]
    by_cases hlen : ((cls.map (fun c => { c with score := jsRound2 c.score })).filter
        (fun c => decide (0 < c.score))).length ≤ 1
    · rw [if_pos hlen, if_neg (by omega)]
    · rw [if_neg hlen, if_pos (by omega)]

/-- Witness for C5: the refinement applied at a concrete raw-score list; the
two equal scores are both at the mean, so both are discarded. -/
theorem classify_spec_witness :
    classifyM false [] = none
    ∧ classifyM true [("en/A".toList, 1/2), ("en/B".toList, 1/2)]
      = some (classifySpecPolicy
          [⟨"A".toList, "en".toList, 1/2⟩, ⟨"B".toList, "en".toList, 1/2⟩]) :=
  ⟨classify_spec.1 [],
    classify_spec.2 [("en/A".toList, 1/2), ("en/B".toList, 1/2)]
      [⟨"A".toList, "en".toList, 1/2⟩, ⟨"B".toList, "en".toList, 1/2⟩]
      (by with_unfolding_all decide)⟩

theorem levGo_nil_left (fuel : Nat) (ys : List Char) : levGo fuel [] ys = ys.length := by
  cases fuel <;> cases ys <;> rfl

theorem levGo_nil_right (fuel : Nat) (xs : List Char) : levGo fuel xs [] = xs.length := by
  cases fuel <;> cases xs <;> rfl

theorem levGo_succ_cons (fuel : Nat) (x y : Char) (xs ys : List Char) :
    levGo (fuel + 1) (x :: xs) (y :: ys)
      = if x = y then levGo fuel xs ys
        else 1 + min (levGo fuel xs (y :: ys))
          (min (levGo fuel (x :: xs) ys) (levGo fuel xs ys)) := rfl

theorem levGo_self : ∀ (s : List Char) (fuel : Nat), s.length ≤ fuel → levGo fuel s s = 0 := by
  intro s
  induction s with
  | nil =>
    intro fuel _
    cases fuel <;> rfl
  | cons x xs ih =>
    intro fuel hf
    cases fuel with
    | zero => simp at hf
    | succ f =>
      rw [levGo_succ_cons, if_pos rfl]
      exact ih f (by simp at hf; omega)

theorem levenshtein_self (s : List Char) : levenshtein s s = 0 :=
  levGo_self s (s.length + s.length) (by omega)

theorem levGo_disjoint : ∀ (fuel : Nat) (xs ys : List Char),
    (∀ a ∈ xs, a ∉ ys) → xs.length + ys.length ≤ fuel →
    max xs.length ys.length ≤ levGo fuel xs ys := by
  intro fuel
  induction fuel with
  | zero =>
    intro xs ys _ hf
    have hx : xs = [] := List.eq_nil_of_length_eq_zero (by omega)
    have hy : ys = [] := List.eq_nil_of_length_eq_zero (by omega)
    subst hx
    subst hy
    simp [levGo]
  | succ f ih =>
    intro xs ys hd hf
    cases xs with
    | nil =>
      rw [levGo_nil_left]
      simp
    | cons x xs2 =>
      cases ys with
      | nil =>
        rw [levGo_nil_right]
        simp
      | cons y ys2 =>
        have hxy : ¬ x = y := by
          intro he
          exact (hd x (List.mem_cons_self _ _)) (he ▸ List.mem_cons_self _ _)
        rw [levGo_succ_cons, if_neg hxy]
        have ha := ih xs2 (y :: ys2)
          (fun a haa => hd a (List.mem_cons_of_mem _ haa))
          (by simp at hf ⊢; omega)
        have hb := ih (x :: xs2) ys2
          (fun a haa hm => hd a haa (List.mem_cons_of_mem _ hm))
          (by simp at hf ⊢; omega)
        have hc := ih xs2 ys2
          (fun a haa hm => hd a (List.mem_cons_of_mem _ haa) (List.mem_cons_of_mem _ hm))
          (by simp at hf ⊢; omega)
        simp only [List.length_cons] at *
        omega

theorem levenshtein_disjoint (xs ys : List Char) (hd : ∀ a ∈ xs, a ∉ ys) :
    max xs.length ys.length ≤ levenshtein xs ys :=
  levGo_disjoint (xs.length + ys.length) xs ys hd le_rfl

theorem ratFloor_eq_floor (q : ℚ) : ratFloor q = ⌊q⌋ := by
  rw [Rat.floor_def]
  rfl

theorem jsRound2_le (x : ℚ) : jsRound2 x ≤ x + 1/200 := by
  rw [jsRound2, ratFloor_eq_floor]
  have h := Int.floor_le (100 * x + 1/2)
  rw [div_le_iff₀ (by norm_num : (0:ℚ) < 100)]
  linarith

theorem round2_lt_three_quarters {y : ℚ} (h : y < 149/200) : jsRound2 y < 3/4 := by
  have := jsRound2_le y
  linarith

theorem similarity_lt_threshold (tlen lev : Nat) (h0 : 0 < tlen)
    (h : 51 * tlen < 200 * lev) :
    max 0 (jsRound2 (((tlen : ℚ) - (lev : ℚ)) / (tlen : ℚ))) < 3/4 := by
  have ht : (0:ℚ) < (tlen : ℚ) := by exact_mod_cast h0
  have hc : (51:ℚ) * tlen < 200 * lev := by exact_mod_cast h
  have hy : ((tlen : ℚ) - (lev : ℚ)) / (tlen : ℚ) < 149/200 := by
    rw [div_lt_iff₀ ht]
    linarith
  rw [max_lt_iff]
  exact ⟨by norm_num, round2_lt_three_quarters hy⟩

theorem mem_sortDescBy {α : Type} (f : α → ℚ) (y : α) :
    ∀ l : List α, y ∈ sortDescBy f l ↔ y ∈ l := by
  intro l
  induction l with
  | nil => simp [sortDescBy]
  | cons x xs ih =>
    simp only [sortDescBy]
    rw [mem_insertDescBy, ih, List.mem_cons]

theorem sortDescBy_take_one_max {α : Type} (f : α → ℚ) (l : List α) (y : α)
    (hy : y ∈ (sortDescBy f l).take 1) : ∀ x ∈ l, f x ≤ f y := by
  intro x hx
  cases hs : sortDescBy f l with
  | nil =>
    rw [hs] at hy
    simp at hy
  | cons h t =>
    rw [hs] at hy
    have hyh : y = h := by simpa using hy
    subst hyh
    have hsort := sorted_sortDescBy f l
    rw [hs, List.pairwise_cons] at hsort
    have hxm : x ∈ sortDescBy f l := (mem_sortDescBy f x l).mpr hx
    rw [hs] at hxm
    rcases List.mem_cons.mp hxm with rfl | hxm
    · exact le_refl _
    · exact hsort.1 x hxm

theorem mem_enumSearchGo : ∀ (l : List EntityMatch) (w : List Char) (e : EntityMatch),
    e ∈ enumSearchGo w l → ∃ e0 ∈ l, e.label = e0.label ∧ e.option = e0.option
      ∧ e.source = e0.source ∧ e.score = e0.score := by
  intro l
  induction l with
  | nil =>
    intro w e he
    simp [enumSearchGo] at he
  | cons x xs ih =>
    intro w e he
    simp only [enumSearchGo] at he
    rcases List.mem_cons.mp he with rfl | he
    · exact ⟨x, List.mem_cons_self _ _, rfl, rfl, rfl, rfl⟩
    · obtain ⟨e0, he0, h⟩ := ih _ e he
      exact ⟨e0, List.mem_cons_of_mem _ he0, h⟩

theorem enumSearchGo_length : ∀ (l : List EntityMatch) (w : List Char),
    (enumSearchGo w l).length = l.length := by
  intro l
  induction l with
  | nil => intro w; rfl
  | cons x xs ih =>
    intro w
    simp only [enumSearchGo, List.length_cons, ih]

theorem flatten_length_le {α β : Type} (g : α → List β) :
    ∀ l : List α, (∀ x ∈ l, (g x).length ≤ 1) → ((l.map g).flatten).length ≤ l.length := by
  intro l
  induction l with
  | nil => intro _; simp
  | cons x xs ih =>
    intro hb
    simp only [List.map_cons, List.flatten_cons, List.length_append, List.length_cons]
    have h1 := hb x (List.mem_cons_self _ _)
    have h2 := ih (fun z hz => hb z (List.mem_cons_of_mem _ hz))
    omega

theorem matchToken_mem {cfg : EnumConfig} {t : List Char} {e : EntityMatch}
    (he : e ∈ EnumEntity.matchToken cfg t) :
    e.source = t ∧ e.label = cfg.label
      ∧ ∃ o ∈ cfg.options, ∃ ex ∈ o.2, e.score = EnumEntity.similarity cfg t ex := by
  rw [EnumEntity.matchToken] at he
  have he2 := (mem_sortDescBy _ _ _).mp he
  rw [List.mem_flatten] at he2
  obtain ⟨s, hs, hes⟩ := he2
  rw [List.mem_map] at hs
  obtain ⟨o, ho, rfl⟩ := hs
  rw [List.mem_map] at hes
  obtain ⟨ex, hex, rfl⟩ := hes
  exact ⟨rfl, rfl, o, ho, ex, hex, rfl⟩

theorem tokenize_nonempty (input : List Char) : ∀ t ∈ tokenize input, t ≠ [] := by
  intro t ht
  rw [tokenize] at ht
  have hp := List.of_mem_filter ht
  intro he
  subst he
  simp at hp

/-- C6 (amended): the enumeration similarity equals
max(0, round2((len(major) − levenshtein(stem(major), stem(minor))) / len(major)));
similarity(x, x) = 1 for every nonempty x; every match kept by
`EnumEntity.search` scores at least the minimum threshold, at most one match
is kept per token, and a kept score dominates the similarity of its token
against every declared example; a token whose stem shares no character with
the stem of any option example yields no match at the default threshold
0.75, provided stemming keeps each stem longer than 51/200 of the token
length (without that proviso the statement fails, see the counterexample). -/
theorem enum_similarity_search_spec :
    (∀ (cfg : EnumConfig) (major minor : List Char),
        EnumEntity.similarity cfg major minor = similaritySpec cfg major minor)
    ∧ (∀ (cfg : EnumConfig) (x : List Char), x ≠ [] →
        EnumEntity.similarity cfg x x = 1)
    ∧ (∀ (cfg : EnumConfig) (input : List Char),
        (EnumEntity.search cfg input).length ≤ (tokenize input).length
        ∧ ∀ e ∈ EnumEntity.search cfg input,
            cfg.minThreshold ≤ e.score
            ∧ ∃ t ∈ tokenize input, e.source = t
                ∧ ∀ o ∈ cfg.options, ∀ ex ∈ o.2,
                    EnumEntity.similarity cfg t ex ≤ e.score)
    ∧ (∀ (cfg : EnumConfig) (input : List Char),
        cfg.minThreshold = 3/4 →
        (∀ t ∈ tokenize input, ∀ o ∈ cfg.options, ∀ ex ∈ o.2,
            ∀ c ∈ cfg.stem t, c ∉ cfg.stem ex) →
        (∀ t ∈ tokenize input, 51 * t.length < 200 * (cfg.stem t).length) →
        EnumEntity.search cfg input = []) := by
  refine ⟨?_, ?_, ?_, ?_⟩
  · intro cfg major minor
    rfl
  · intro cfg x hx
    have hlen : (x.length : ℚ) ≠ 0 := by
      intro h
      exact hx (List.eq_nil_of_length_eq_zero (by exact_mod_cast h))
    show max 0 (jsRound2 (((x.length : ℚ) - (EnumEntity.distance cfg x x : ℚ))
      / (x.length : ℚ))) = 1
    rw [EnumEntity.distance, levenshtein_self]
    rw [Nat.cast_zero, sub_zero, div_self hlen]
    rw [show jsRound2 1 = 1 from by with_unfolding_all decide]
    norm_num
  · intro cfg input
    constructor
    · simp only [EnumEntity.search]
      rw [enumSearchGo_length]
      refine le_trans (List.length_filter_le _ _) ?_
      exact flatten_length_le _ _ (fun t _ => List.length_take_le 1 _)
    · intro e he
      simp only [EnumEntity.search] at he
      obtain ⟨e0, he0, hlab, hopt, hsrc, hsc⟩ := mem_enumSearchGo _ _ _ he
      have hthr : cfg.minThreshold ≤ e0.score := by
        simpa using List.of_mem_filter he0
      have he0f := List.mem_of_mem_filter he0
      rw [List.mem_flatten] at he0f
      obtain ⟨s, hs, hes⟩ := he0f
      rw [List.mem_map] at hs
      obtain ⟨t, ht, rfl⟩ := hs
      refine ⟨by rw [hsc]; exact hthr, t, ht, ?_, ?_⟩
      · have hm := matchToken_mem (List.mem_of_mem_take hes)
        rw [hsrc, hm.1]
      · intro o hoo ex hex
        have hcand : ({ label := cfg.label,
                        option := o.1,
                        source := t,
                        score := EnumEntity.similarity cfg t ex,
                        index := 0 } : EntityMatch)
            ∈ (cfg.options.map (fun o =>
                o.2.map (fun ex =>
                  ({ label := cfg.label,
                     option := o.1,
                     source := t,
                     score := EnumEntity.similarity cfg t ex,
                     index := 0 } : EntityMatch)))).flatten := by
          rw [List.mem_flatten]
          exact ⟨_, List.mem_map.mpr ⟨o, hoo, rfl⟩, List.mem_map.mpr ⟨ex, hex, rfl⟩⟩
        have hmax := sortDescBy_take_one_max EntityMatch.score _ e0
          (by rw [EnumEntity.matchToken] at hes; exact hes) _ hcand
        rw [hsc]
        exact hmax
  · intro cfg input hthr hdis hstem
    simp only [EnumEntity.search]
    have hkept : ((((tokenize input).map
        (fun t => (EnumEntity.matchToken cfg t).take 1)).flatten).filter
        (fun e => decide (cfg.minThreshold ≤ e.score))) = [] := by
      apply List.filter_eq_nil_iff.mpr
      intro e he hpe
      rw [List.mem_flatten] at he
      obtain ⟨s, hs, hes⟩ := he
      rw [List.mem_map] at hs
      obtain ⟨t, ht, rfl⟩ := hs
      obtain ⟨hsrc, hlab, o, hoo, ex, hex, hscore⟩ :=
        matchToken_mem (List.mem_of_mem_take hes)
      have ht0 : t ≠ [] := tokenize_nonempty input t ht
      have hlen0 : 0 < t.length := List.length_pos.mpr ht0
      have hlev : (cfg.stem t).length ≤ EnumEntity.distance cfg t ex := by
        have hd := levenshtein_disjoint (cfg.stem t) (cfg.stem ex)
          (hdis t ht o hoo ex hex)
        rw [EnumEntity.distance]
        omega
      have harith := similarity_lt_threshold t.length (EnumEntity.distance cfg t ex)
        hlen0 (by have := hstem t ht; omega)
      have hsim : EnumEntity.similarity cfg t ex < 3/4 := harith
      have hle : cfg.minThreshold ≤ e.score := by simpa using hpe
      rw [hthr, hscore] at hle
      linarith
    rw [hkept]
    rfl

/-- Witness for C6: the nonemptiness, membership and zero-overlap
hypotheses applied over the concrete identity-stemmer extractor. -/
theorem enum_similarity_search_witness :
    EnumEntity.similarity plainEnum "hello".toList "hello".toList = 1
    ∧ EnumEntity.search plainEnum "qqqq".toList = []
    ∧ plainEnum.minThreshold ≤ ({ label := "greet".toList,
                                  option := "hello".toList,
                                  source := "hello".toList,
                                  score := 1,
                                  index := 0 } : EntityMatch).score := by
  refine ⟨enum_similarity_search_spec.2.1 plainEnum "hello".toList (by decide),
    enum_similarity_search_spec.2.2.2 plainEnum "qqqq".toList
      (by with_unfolding_all decide) (by with_unfolding_all decide)
      (by with_unfolding_all decide),
    ((enum_similarity_search_spec.2.2.1 plainEnum "hello".toList).2 _
      (by with_unfolding_all decide)).1⟩

/-- Counterexample to C6 as stated: a stemmer shrinking the token `aaaa` to
the single letter `b` while the sole option example `x` stems to `c` gives
stems sharing no character, yet the extractor at threshold 0.75 keeps a
match for that token. -/
theorem enum_zero_overlap_counterexample :
    (∀ c ∈ adversarialEnum.stem "aaaa".toList,
        ∀ o ∈ adversarialEnum.options, ∀ ex ∈ o.2, c ∉ adversarialEnum.stem ex)
    ∧ EnumEntity.search adversarialEnum "aaaa".toList
      = [{ label := "adv".toList, option := "x".toList, source := "aaaa".toList,
           score := 3/4, index := 0 }] := by
  constructor
  · with_unfolding_all decide
  · with_unfolding_all decide

theorem Routine.stateAfter_eq {Out E : Type} (spec : ScriptSpec Out E) :
    ∀ n : Nat, Routine.stateAfter spec n =
      { scriptStarted := decide (0 < n)
        scriptResolved := decide (spec.yields.length < n)
        remaining := spec.yields.drop n
        result := spec.result } := by
  intro n
  induction n with
  | zero =>
    simp [Routine.stateAfter, Routine.init]
  | succ n ih =>
    show (Routine.process (Routine.stateAfter spec n)).2.1 = _
    rw [ih, Routine.process]
    by_cases h1 : spec.yields.length < n
    · rw [if_pos (by simpa using h1)]
      have h2 : 0 < n := by omega
      have h3 : spec.yields.length < n + 1 := by omega
      have h4 : spec.yields.drop n = ([] : List Out) :=
        List.drop_eq_nil_of_le (by omega)
      have h5 : spec.yields.drop (n + 1) = ([] : List Out) :=
        List.drop_eq_nil_of_le (by omega)
      simp [h1, h2, h3, h4, h5]
    · rw [if_neg (by simpa using h1)]
      by_cases h0 : n = 0
      · subst h0
        rw [if_pos (by simp)]
        cases hys : spec.yields with
        | nil =>
          cases hres : spec.result <;>
            simp [runToSuspension, hys, hres]
        | cons o rest =>
          simp [runToSuspension, hys]
      · rw [if_neg (by simp [Nat.pos_of_ne_zero h0])]
        cases hdrop : spec.yields.drop n with
        | nil =>
          have hlen : spec.yields.length ≤ n := by
            by_contra hcon
            have := List.drop_eq_nil_iff.mp hdrop
            omega
          have hn : spec.yields.length = n := by omega
          have h5 : spec.yields.drop (n + 1) = ([] : List Out) :=
            List.drop_eq_nil_of_le (by omega)
          cases hres : spec.result <;>
            simp [runToSuspension, hdrop, hres, h5, h0, Nat.pos_of_ne_zero, hn]
        | cons o rest =>
          have hlt : n < spec.yields.length := by
            by_contra hcon
            rw [List.drop_eq_nil_of_le (by omega)] at hdrop
            exact absurd hdrop (by simp)
          have hrest : spec.yields.drop (n + 1) = rest := by
            have := List.drop_drop 1 n spec.yields
            rw [hdrop] at this
            simpa [Nat.add_comm] using this.symm
          simp [runToSuspension, hdrop, hrest, h0, Nat.pos_of_ne_zero]
          omega

/-- C7: when the script throws, the `process` call pending at the failure —
the one that resumes the script past its last yield — rejects with that
same error, `isDone` reports true afterwards, and every later `process`
call resolves with nothing instead of re-raising. -/
theorem routine_error_propagation {Out E : Type} (spec : ScriptSpec Out E) (e : E)
    (he : spec.result = .err e) :
    Routine.callOutcome spec spec.yields.length = .rejected e
    ∧ Routine.isDone (Routine.stateAfter spec (spec.yields.length + 1)) = true
    ∧ ∀ k, spec.yields.length < k → Routine.callOutcome spec k = .nothing := by
  have hstate := Routine.stateAfter_eq spec
  refine ⟨?_, ?_, ?_⟩
  · rw [Routine.callOutcome, hstate spec.yields.length, Routine.process]
    rw [if_neg (by simp)]
    by_cases h0 : spec.yields.length = 0
    · have hnil : spec.yields = [] := List.eq_nil_of_length_eq_zero h0
      rw [if_pos (by simp [h0])]
      simp [runToSuspension, hnil, he]
    · rw [if_neg (by simp [Nat.pos_of_ne_zero h0])]
      simp [runToSuspension, List.drop_length, he]
  · rw [Routine.isDone, hstate]
    simp
  · intro k hk
    rw [Routine.callOutcome, hstate k, Routine.process]
    rw [if_pos (by simpa using hk)]

theorem lookupConvo_setConvo_self {Resp E : Type} (m : ConvoMap Resp E) (u : List Char)
    (st : RoutineState Resp E) : lookupConvo (setConvo m u st) u = some st := by
  rw [lookupConvo, setConvo, List.find?_cons_of_pos _ (by simp)]
  rfl

theorem find?_filter_ne {Resp E : Type} (u v : List Char) (h : v ≠ u) :
    ∀ m : ConvoMap Resp E,
      (m.filter (fun p => p.1 != u)).find? (fun p => p.1 == v)
        = m.find? (fun p => p.1 == v) := by
  intro m
  induction m with
  | nil => rfl
  | cons p ps ih =>
    by_cases hp : p.1 = u
    · rw [List.filter_cons_of_neg (by simp [hp]), ih,
        List.find?_cons_of_neg _ (by simp [hp]; exact fun he => h he.symm)]
    · rw [List.filter_cons_of_pos (by simp [hp])]
      by_cases hq : p.1 = v
      · rw [List.find?_cons_of_pos _ (by simp [hq]),
          List.find?_cons_of_pos _ (by simp [hq])]
      · rw [List.find?_cons_of_neg _ (by simp [hq]),
          List.find?_cons_of_neg _ (by simp [hq]), ih]

theorem lookupConvo_setConvo_ne {Resp E : Type} (m : ConvoMap Resp E) (u v : List Char)
    (st : RoutineState Resp E) (h : v ≠ u) :
    lookupConvo (setConvo m u st) v = lookupConvo m v := by
  rw [lookupConvo, setConvo,
    List.find?_cons_of_neg _ (by simp; exact fun he => h he.symm),
    find?_filter_ne u v h m]
  rfl

theorem lookupConvo_delConvo_ne {Resp E : Type} (m : ConvoMap Resp E) (u v : List Char)
    (h : v ≠ u) : lookupConvo (delConvo m u) v = lookupConvo m v := by
  rw [lookupConvo, delConvo, find?_filter_ne u v h m]
  rfl

theorem lookupConvo_delConvo_self {Resp E : Type} (m : ConvoMap Resp E) (u : List Char) :
    lookupConvo (delConvo m u) u = none := by
  rw [lookupConvo, delConvo, List.find?_eq_none.mpr]
  · rfl
  · intro p hp
    have := List.of_mem_filter hp
    simp only [bne_iff_ne, ne_eq, decide_eq_true_eq] at this ⊢
    simpa using this

theorem setConvo_setConvo {Resp E : Type} (m : ConvoMap Resp E) (u : List Char)
    (a b : RoutineState Resp E) : setConvo (setConvo m u a) u b = setConvo m u b := by
  rw [setConvo, setConvo, setConvo]
  congr 1
  rw [List.filter_cons_of_neg (by simp)]
  rw [List.filter_filter]
  apply List.filter_congr
  intro p _
  simp

/-- Witness for C7: a script yielding once and then throwing `boom`:
the second call rejects, `isDone` holds afterwards, and the fifth call
resolves with nothing. -/
theorem routine_error_propagation_witness :
    Routine.callOutcome (⟨["ask".toList], .err "boom".toList⟩ :
        ScriptSpec (List Char) (List Char)) 1
      = .rejected "boom".toList
    ∧ Routine.isDone (Routine.stateAfter (⟨["ask".toList], .err "boom".toList⟩ :
        ScriptSpec (List Char) (List Char)) 2) = true
    ∧ Routine.callOutcome (⟨["ask".toList], .err "boom".toList⟩ :
        ScriptSpec (List Char) (List Char)) 5 = .nothing := by
  have h := routine_error_propagation
    (⟨["ask".toList], .err "boom".toList⟩ : ScriptSpec (List Char) (List Char))
    "boom".toList rfl
  exact ⟨h.1, h.2.1, h.2.2 5 (by decide)⟩

theorem length_le_one_of_nodup_const {l : List Nat} {a : Nat} (hnd : l.Nodup)
    (hall : ∀ x ∈ l, x = a) : l.length ≤ 1 := by
  cases l with
  | nil => simp
  | cons x xs =>
    have hx := hall x (List.mem_cons_self _ _)
    subst hx
    rw [List.nodup_cons] at hnd
    cases xs with
    | nil => simp
    | cons y ys =>
      have hy := hall y (List.mem_cons_of_mem _ (List.mem_cons_self _ _))
      exact absurd (hy ▸ List.mem_cons_self y ys : x ∈ y :: ys) hnd.1

/-- C10: the script function is invoked by the first `process` call and by
no later one — so at most once over the lifetime of the routine — and once
the script has finished, every subsequent call resolves with nothing,
still without invoking the script. -/
theorem routine_script_invoked_once {Out E : Type} (spec : ScriptSpec Out E) :
    Routine.callInvokes spec 0 = true
    ∧ (∀ k, Routine.callInvokes spec (k + 1) = false)
    ∧ (∀ k, spec.yields.length < k →
        Routine.callOutcome spec k = .nothing ∧ Routine.callInvokes spec k = false)
    ∧ ∀ n, ((List.range n).filter (fun k => Routine.callInvokes spec k)).length ≤ 1 := by
  have hstate := Routine.stateAfter_eq spec
  have hlater : ∀ k, Routine.callInvokes spec (k + 1) = false := by
    intro k
    rw [Routine.callInvokes, hstate (k + 1), Routine.process]
    by_cases h1 : spec.yields.length < k + 1
    · rw [if_pos (by simpa using h1)]
    · rw [if_neg (by simpa using h1), if_neg (by simp)]
  refine ⟨?_, hlater, ?_, ?_⟩
  · rw [Routine.callInvokes, hstate 0, Routine.process]
    rw [if_neg (by simp), if_pos (by simp)]
  · intro k hk
    constructor
    · rw [Routine.callOutcome, hstate k, Routine.process]
      rw [if_pos (by simpa using hk)]
    · rw [Routine.callInvokes, hstate k, Routine.process]
      rw [if_pos (by simpa using hk)]
  · intro n
    apply length_le_one_of_nodup_const (a := 0)
    · exact List.Nodup.filter _ (List.nodup_range n)
    · intro x hx
      have hpx := List.of_mem_filter hx
      cases x with
      | zero => rfl
      | succ m =>
        rw [hlater m] at hpx
        exact absurd hpx (by simp)

/-- Witness for C10: the post-completion clause applied at a concrete
script and call index. -/
theorem routine_script_invoked_once_witness :
    Routine.callOutcome (⟨["hi".toList], .ok⟩ :
        ScriptSpec (List Char) (List Char)) 3 = .nothing
    ∧ Routine.callInvokes (⟨["hi".toList], .ok⟩ :
        ScriptSpec (List Char) (List Char)) 3 = false :=
  (routine_script_invoked_once
    (⟨["hi".toList], .ok⟩ : ScriptSpec (List Char) (List Char))).2.2.1 3 (by decide)

theorem processAnswer_other_keys {E : Type} (docs : List (List Char × BotDoc BotResponse))
    (sample : List (List Char) → Option (List Char)) :
    ∀ (fuel : Nat) (u : List Char) (res : BotResponse) (convos : ConvoMap BotResponse E)
      (r : BotResponse) (m2 : ConvoMap BotResponse E),
      processAnswer docs sample fuel u res convos = .ok (r, m2) →
      ∀ v, v ≠ u → lookupConvo m2 v = lookupConvo convos v := by
  intro fuel
  induction fuel with
  | zero =>
    intro u res convos r m2 h v hv
    rw [processAnswer] at h
    simp only [Except.ok.injEq, Prod.mk.injEq] at h
    rw [← h.2]
  | succ fuel ih =>
    intro u res convos r m2 h v hv
    rw [processAnswer] at h
    cases hconv : lookupConvo convos u with
    | some st =>
      rw [hconv] at h
      simp only [] at h
      rcases hp : Routine.process st with ⟨out, st2, inv⟩
      rw [hp] at h
      cases out with
      | yielded o =>
        simp only [] at h
        by_cases hdone : Routine.isDone st2
        · rw [if_pos (by simpa using hdone)] at h
          rw [ih u res (delConvo convos u) r m2 h v hv,
            lookupConvo_delConvo_ne _ _ _ hv]
        · rw [if_neg (by simpa using hdone)] at h
          simp only [Except.ok.injEq, Prod.mk.injEq] at h
          rw [← h.2, lookupConvo_setConvo_ne _ _ _ _ hv]
      | nothing =>
        simp only [] at h
        rw [ih u res (delConvo convos u) r m2 h v hv,
          lookupConvo_delConvo_ne _ _ _ hv]
      | rejected e =>
        simp at h
    | none =>
      rw [hconv] at h
      simp only [] at h
      cases hdoc : res.intent.bind
          (fun i => (docs.find? (fun d => d.1 == i)).map Prod.snd) with
      | none =>
        rw [hdoc] at h
        simp only [Except.ok.injEq, Prod.mk.injEq] at h
        rw [← h.2]
      | some d =>
        rw [hdoc] at h
        simp only [] at h
        cases hans : d.answers with
        | some answers =>
          rw [hans] at h
          simp only [Except.ok.injEq, Prod.mk.injEq] at h
          rw [← h.2]
        | none =>
          rw [hans] at h
          simp only [] at h
          cases hh : d.handler with
          | some hs =>
            rw [hh] at h
            simp only [] at h
            rw [ih u res
              (setConvo convos u (Routine.init ⟨hs.map (fun f => f res), .ok⟩)) r m2 h v hv,
              lookupConvo_setConvo_ne _ _ _ _ hv]
          | none =>
            rw [hh] at h
            simp only [Except.ok.injEq, Prod.mk.injEq] at h
            rw [← h.2]

theorem processAnswer_own_key {E : Type} (docs : List (List Char × BotDoc BotResponse))
    (sample : List (List Char) → Option (List Char)) :
    ∀ (fuel : Nat) (u : List Char) (res : BotResponse)
      (m1 m2 : ConvoMap BotResponse E),
      lookupConvo m1 u = lookupConvo m2 u →
      (processAnswer docs sample fuel u res m1).map (fun p => (p.1, lookupConvo p.2 u))
        = (processAnswer docs sample fuel u res m2).map
            (fun p => (p.1, lookupConvo p.2 u)) := by
  intro fuel
  induction fuel with
  | zero =>
    intro u res m1 m2 hm
    simp [processAnswer, Except.map, hm]
  | succ fuel ih =>
    intro u res m1 m2 hm
    rw [processAnswer, processAnswer]
    cases hconv : lookupConvo m1 u with
    | some st =>
      have hconv2 : lookupConvo m2 u = some st := hm ▸ hconv
      rw [hconv2]
      simp only []
      rcases hp : Routine.process st with ⟨out, st2, inv⟩
      cases out with
      | yielded o =>
        simp only []
        by_cases hdone : Routine.isDone st2
        · rw [if_pos (by simpa using hdone), if_pos (by simpa using hdone)]
          exact ih u res (delConvo m1 u) (delConvo m2 u)
            (by rw [lookupConvo_delConvo_self, lookupConvo_delConvo_self])
        · rw [if_neg (by simpa using hdone), if_neg (by simpa using hdone)]
          simp [Except.map, lookupConvo_setConvo_self]
      | nothing =>
        exact ih u res (delConvo m1 u) (delConvo m2 u)
          (by rw [lookupConvo_delConvo_self, lookupConvo_delConvo_self])
      | rejected e =>
        rfl
    | none =>
      have hconv2 : lookupConvo m2 u = none := hm ▸ hconv
      rw [hconv2]
      simp only []
      cases hdoc : res.intent.bind
          (fun i => (docs.find? (fun d => d.1 == i)).map Prod.snd) with
      | none =>
        simp [Except.map, hm]
      | some d =>
        simp only []
        cases hans : d.answers with
        | some answers =>
          simp [Except.map, hm]
        | none =>
          simp only []
          cases hh : d.handler with
          | some hs =>
            simp only []
            exact ih u res _ _
              (by rw [lookupConvo_setConvo_self, lookupConvo_setConvo_self])
          | none =>
            simp [Except.map, hm]

/-- C8: a handler that asks and then says produces the ask prompt on the
first turn and the say result on the second turn for the same user id, the
started routine being stored under that user id; and processing one user
neither reads nor writes any other user entry, so concurrent conversations
under distinct user ids proceed independently. -/
theorem bot_conversation_spec :
    (∀ (E : Type) (docs : List (List Char × BotDoc BotResponse))
        (sample : List (List Char) → Option (List Char))
        (classify : List Char × List Char → BotResponse) (fuel : Nat)
        (u : List Char) (req1 req2 : List Char × List Char) (i : List Char)
        (fask fsay : BotResponse → BotResponse) (convos : ConvoMap BotResponse E),
      req1.1 = u → req2.1 = u →
      (classify req1).intent = some i →
      ((docs.find? (fun d => d.1 == i)).map Prod.snd : Option (BotDoc BotResponse))
        = some ⟨none, some [fask, fsay]⟩ →
      lookupConvo convos u = none →
      botProcess docs sample classify (fuel + 2) convos req1
        = .ok (fask (classify req1),
            setConvo convos u ⟨true, false, [fsay (classify req1)], .ok⟩)
      ∧ botProcess docs sample classify (fuel + 2)
          (setConvo convos u ⟨true, false, [fsay (classify req1)], .ok⟩) req2
        = .ok (fsay (classify req1), setConvo convos u ⟨true, false, [], .ok⟩))
    ∧ (∀ (E : Type) (docs : List (List Char × BotDoc BotResponse))
        (sample : List (List Char) → Option (List Char))
        (classify : List Char × List Char → BotResponse) (fuel : Nat)
        (convos : ConvoMap BotResponse E) (req : List Char × List Char)
        (r : BotResponse) (m2 : ConvoMap BotResponse E),
      botProcess docs sample classify fuel convos req = .ok (r, m2) →
      ∀ v, v ≠ req.1 → lookupConvo m2 v = lookupConvo convos v)
    ∧ (∀ (E : Type) (docs : List (List Char × BotDoc BotResponse))
        (sample : List (List Char) → Option (List Char))
        (classify : List Char × List Char → BotResponse) (fuel : Nat)
        (m1 m2 : ConvoMap BotResponse E) (req : List Char × List Char),
      lookupConvo m1 req.1 = lookupConvo m2 req.1 →
      (botProcess docs sample classify fuel m1 req).map
          (fun p => (p.1, lookupConvo p.2 req.1))
        = (botProcess docs sample classify fuel m2 req).map
            (fun p => (p.1, lookupConvo p.2 req.1))) := by
  refine ⟨?_, ?_, ?_⟩
  · intro E docs sample classify fuel u req1 req2 i fask fsay convos
      hu1 hu2 hint hdoc hconvo
    have hstep2 : fuel + 2 = fuel + 1 + 1 := rfl
    constructor
    · rw [botProcess, hu1, hstep2, processAnswer, hconvo]
      simp only [hint, Option.some_bind, hdoc]
      rw [processAnswer, lookupConvo_setConvo_self]
      simp only [Routine.init, List.map_cons, List.map_nil, Routine.process,
        runToSuspension, Routine.isDone]
      simp [setConvo_setConvo]
    · rw [botProcess, hu2, hstep2, processAnswer, lookupConvo_setConvo_self]
      simp only [Routine.process, runToSuspension, Routine.isDone]
      simp [setConvo_setConvo]
  · intro E docs sample classify fuel convos req r m2 h v hv
    exact processAnswer_other_keys docs sample fuel req.1 (classify req) convos r m2 h v hv
  · intro E docs sample classify fuel m1 m2 req hm
    exact processAnswer_own_key docs sample fuel req.1 (classify req) m1 m2 hm

/-- Witness for C8: the two-turn conversation and the isolation clauses
applied at a concrete one-document bot with two users. -/
theorem bot_conversation_spec_witness :
    botProcess (E := List Char)
        [("greet".toList,
          ⟨none, some [fun r => { r with answer := some "name?".toList },
                       fun r => { r with answer := some "noted".toList }]⟩)]
        (fun _ => none)
        (fun _ => ⟨none, some "greet".toList, none, [], []⟩)
        2 [] ("A".toList, "hi".toList)
      = .ok ({ language := none, intent := some "greet".toList,
               answer := some "name?".toList, classifications := [], entities := [] },
          [("A".toList,
            ⟨true, false,
             [{ language := none, intent := some "greet".toList,
                answer := some "noted".toList, classifications := [], entities := [] }],
             .ok⟩)])
    ∧ lookupConvo
        ([("A".toList,
           (⟨true, false,
            [{ language := none, intent := some "greet".toList,
               answer := some "noted".toList, classifications := [], entities := [] }],
            .ok⟩ : RoutineState BotResponse (List Char)))])
        "B".toList
      = lookupConvo ([] : ConvoMap BotResponse (List Char)) "B".toList := by
  have h := (bot_conversation_spec.1 (List Char)
    [("greet".toList,
      ⟨none, some [fun r => { r with answer := some "name?".toList },
                   fun r => { r with answer := some "noted".toList }]⟩)]
    (fun _ => none)
    (fun _ => ⟨none, some "greet".toList, none, [], []⟩)
    0 "A".toList ("A".toList, "hi".toList) ("A".toList, "again".toList)
    "greet".toList
    (fun r => { r with answer := some "name?".toList })
    (fun r => { r with answer := some "noted".toList })
    [] rfl rfl rfl rfl rfl)
  constructor
  · exact h.1
  · exact bot_conversation_spec.2.1 (List Char)
      [("greet".toList,
        ⟨none, some [fun r => { r with answer := some "name?".toList },
                     fun r => { r with answer := some "noted".toList }]⟩)]
      (fun _ => none)
      (fun _ => ⟨none, some "greet".toList, none, [], []⟩)
      2 [] ("A".toList, "hi".toList) _ _ h.1 "B".toList (by decide)

theorem lookupDoc_setDoc_self (m : List (List Char × BotDocument)) (i : List Char)
    (d : BotDocument) : lookupDoc (setDoc m i d) i = some d := by
  rw [lookupDoc, setDoc, List.find?_cons_of_pos _ (by simp)]
  rfl

/-- C9 (amended): `Bot.addDocument` performs no duplicate-intent check: a
document with a nonempty example list is always accepted — a duplicate
intent silently overwrites the docs-map entry while all examples accumulate
in the classifier — and the call fails only when the document carries no
examples, which is the only case in which the classifier count cannot
grow. -/
theorem bot_addDocument_spec :
    (∀ (detect : List Char → List Char) (st : BotState) (doc : BotDocument),
        doc.examples ≠ [] →
        ∃ st2, Bot.addDocument detect st doc = .ok st2
          ∧ lookupDoc st2.docs doc.intent = some doc
          ∧ st2.classifierDocs.length
            = st.classifierDocs.length + doc.examples.length)
    ∧ (∀ (detect : List Char → List Char) (st : BotState) (doc : BotDocument),
        doc.examples = [] →
        Bot.addDocument detect st doc
          = .error "No new documents were added. Bad tokenizer?".toList) := by
  constructor
  · intro detect st doc hne
    have hlen : ¬ (st.classifierDocs
        ++ doc.examples.map (fun ex =>
          (ex, buildLabel doc.intent (doc.language.getD (detect ex))))).length
        = st.classifierDocs.length := by
      simp only [List.length_append, List.length_map]
      have hz : doc.examples.length ≠ 0 := fun h => hne (List.eq_nil_of_length_eq_zero h)
      omega
    have haddc : Classifier.addDocument detect st.classifierDocs doc
        = .ok (st.classifierDocs ++ doc.examples.map (fun ex =>
            (ex, buildLabel doc.intent (doc.language.getD (detect ex))))) := by
      rw [Classifier.addDocument]
      rw [if_neg hlen]
    refine ⟨{ classifierDocs := st.classifierDocs ++ doc.examples.map (fun ex =>
                (ex, buildLabel doc.intent (doc.language.getD (detect ex))))
              docs := setDoc st.docs doc.intent doc }, ?_, ?_, ?_⟩
    · rw [Bot.addDocument, haddc]
    · exact lookupDoc_setDoc_self st.docs doc.intent doc
    · simp
  · intro detect st doc he
    simp [Bot.addDocument, Classifier.addDocument, he]

/-- Witness for C9: a one-example document is accepted and stored, and a
zero-example document is rejected. -/
theorem bot_addDocument_spec_witness :
    (∃ st2, Bot.addDocument (fun _ => "en".toList) ⟨[], []⟩
        ⟨"greeting".toList, none, ["hello".toList], none⟩ = .ok st2
      ∧ lookupDoc st2.docs "greeting".toList
        = some ⟨"greeting".toList, none, ["hello".toList], none⟩
      ∧ st2.classifierDocs.length
        = (⟨[], []⟩ : BotState).classifierDocs.length
          + (["hello".toList] : List (List Char)).length)
    ∧ Bot.addDocument (fun _ => "en".toList) ⟨[], []⟩
        ⟨"empty".toList, none, [], none⟩
      = .error "No new documents were added. Bad tokenizer?".toList :=
  ⟨bot_addDocument_spec.1 (fun _ => "en".toList) ⟨[], []⟩
      ⟨"greeting".toList, none, ["hello".toList], none⟩ (by decide),
    bot_addDocument_spec.2 (fun _ => "en".toList) ⟨[], []⟩
      ⟨"empty".toList, none, [], none⟩ rfl⟩

/-- Counterexample to C9 as stated: two documents with the same intent
`greeting` are both accepted — no configuration error is raised — and the
second overwrites the docs-map entry, exactly the behaviour the
multi-language test of bot.test.ts relies on when it registers the same
intent once per language. -/
theorem bot_addDocument_duplicate_counterexample :
    ∃ st1 st2 : BotState,
      Bot.addDocument (fun _ => "en".toList) ⟨[], []⟩
        ⟨"greeting".toList, some "uk".toList, ["privit".toList], none⟩ = .ok st1
      ∧ Bot.addDocument (fun _ => "en".toList) st1
        ⟨"greeting".toList, some "ru".toList, ["privet".toList], none⟩ = .ok st2
      ∧ lookupDoc st2.docs "greeting".toList
        = some ⟨"greeting".toList, some "ru".toList, ["privet".toList], none⟩ := by
  exact ⟨_, _, rfl, rfl, rfl⟩

/-- Counterexample to C4 as stated: with three sentences carrying three
distinct intents of equal weight, the renormalized-then-rounded scores are
0.33 each, so the returned scores sum to 0.99 rather than 1. -/
theorem classifyText_sum_counterexample :
    classifyTextM classifyUniform "x. y. z".toList
      = some [⟨"A".toList, "en".toList, 33/100⟩, ⟨"B".toList, "en".toList, 33/100⟩,
              ⟨"C".toList, "en".toList, 33/100⟩]
    ∧ (([⟨"A".toList, "en".toList, 33/100⟩, ⟨"B".toList, "en".toList, 33/100⟩,
         ⟨"C".toList, "en".toList, 33/100⟩] : List ClassifierMatch).map
          ClassifierMatch.score).sum ≠ 1 := by
  constructor
  · with_unfolding_all decide
  · with_unfolding_all decide

end Symon
